import Mathlib

/-!
Verification of the Reversi board/move engine and adversarial search.

Shallow embedding of the C++ sources:
- game.cpp: `checkValidMove`, `applyMove`, `hasValidMoves`, `getScore`
- board.cpp: `stringToBoardPosition`, `boardPositionToString`,
  `changeBitOnBoard`, `setupInitialPos`
- opponent.cpp: `minimax` (alpha-beta), `evaluateBoard`, `getPossibleMoves`,
  `opponent`

Bitboards (C++ uint64_t) are modelled as `Nat`, with 64-bit range
hypotheses (`n < 2 ^ 64`) added where a statement depends on the width.
C++ `int` is modelled as `Int`: no arithmetic performed by the engine can
overflow 32 bits (all search values are bounded by the static evaluator's
range, far inside the int range), so the embedding is exact.
Board coordinates are `Int` pairs as in the C++ (`std::pair<int, int>`).
-/

namespace Reversi

/-- Players, corresponding to the two char values 'W' and 'B' used by the
C++ code at every call site. -/
inductive Player where
  | W : Player
  | B : Player
deriving DecidableEq, Repr

/-- Direction table from consts.hpp (DIRECTIONS). -/
def DIRECTIONS : List (Int × Int) :=
  [(-1, -1), (-1, 0), (-1, 1), (0, -1), (0, 1), (1, -1), (1, 0), (1, 1)]

/-- Constant BOARD_LENGTH from consts.hpp. -/
def BOARD_LENGTH : Int := 8

/-- Constant CORNER_WEIGHT from consts.hpp. -/
def CORNER_WEIGHT : Int := 10

/-- Constant SIDE_WEIGHT from consts.hpp. -/
def SIDE_WEIGHT : Int := 5

/-- All bits set in a uint64_t; the C++ expression ~mask on uint64_t is
modelled as UINT64MAX ^^^ mask. -/
def UINT64MAX : Nat := 2 ^ 64 - 1

/-- INT_MIN from climits (32-bit int, as used by opponent.cpp). -/
def INT_MIN : Int := -2147483648

/-- INT_MAX from climits (32-bit int, as used by opponent.cpp). -/
def INT_MAX : Int := 2147483647

/-- Bit index of a square, the C++ expression row * BOARD_LENGTH + column
(always used at in-range coordinates, where toNat is the identity). -/
def squareIndex (row column : Int) : Nat := (row * 8 + column).toNat

/-- Range test 0 <= r < 8 and 0 <= c < 8, the C++ while-loop guard of the
direction walks. -/
def inBoard (r c : Int) : Prop := 0 ≤ r ∧ r < 8 ∧ 0 ≤ c ∧ c < 8

instance (r c : Int) : Decidable (inBoard r c) := by
  unfold inBoard; infer_instance

/-- Direction walk of Game::checkValidMove (game.cpp, inner while loop):
starting at square (r, c) it walks by (dRow, dCol); while it sees opponent
squares it records hasOpponentBetween; on a player square it reports
hasOpponentBetween; on an empty square or the board edge it reports false.
The fuel argument bounds the number of loop iterations; 8 iterations always
suffice to leave the board from an in-range start (proved below). -/
def validWalk (pB oB : Nat) (dRow dCol : Int) : Nat → Int → Int → Bool → Bool
  | 0, _, _, _ => false
  | fuel + 1, r, c, hasOpp =>
    if inBoard r c then
      let currentIndex := squareIndex r c
      if oB.testBit currentIndex then
        validWalk pB oB dRow dCol fuel (r + dRow) (c + dCol) true
      else if pB.testBit currentIndex then
        hasOpp
      else
        false
    else
      false

/-- Game::checkValidMove from game.cpp: reject an occupied target square,
otherwise scan the 8 directions for a legal outflank (short-circuit via
List.any, as the C++ returns true from inside the loop). -/
def checkValidMove (white black : Nat) (boardPosition : Int × Int)
    (player : Player) : Bool :=
  let playerBoard := if player = Player.W then white else black
  let opponentBoard := if player = Player.W then black else white
  let row := boardPosition.1
  let column := boardPosition.2
  let index := squareIndex row column
  let mask := 1 <<< index
  if playerBoard &&& mask ≠ 0 ∨ opponentBoard &&& mask ≠ 0 then
    false
  else
    DIRECTIONS.any fun d =>
      validWalk playerBoard opponentBoard d.1 d.2 8 (row + d.1) (column + d.2)
        false

/-- Direction walk of Game::applyMove (game.cpp, inner while loop): same
traversal as validWalk but accumulating the opponent squares seen (toFlip,
grown by push_back); reaching a player square returns the accumulated list
when hasOpponentBetween is set, otherwise (or on an empty square or the
board edge) the accumulated list is discarded and nothing is flipped. -/
def flipWalk (pB oB : Nat) (dRow dCol : Int) :
    Nat → Int → Int → Bool → List Nat → List Nat
  | 0, _, _, _, _ => []
  | fuel + 1, r, c, hasOpp, toFlip =>
    if inBoard r c then
      let currentIndex := squareIndex r c
      if oB.testBit currentIndex then
        flipWalk pB oB dRow dCol fuel (r + dRow) (c + dCol) true
          (toFlip ++ [currentIndex])
      else if pB.testBit currentIndex then
        if hasOpp then toFlip else []
      else
        []
    else
      []

/-- Setting the bits of a list of indices, in order (the C++ flip loop does
playerBoard |= flipMask per index). -/
def setBitsList (b : Nat) (l : List Nat) : Nat :=
  l.foldl (fun acc i => acc ||| (1 <<< i)) b

/-- Clearing the bits of a list of indices, in order (the C++ flip loop
does opponentBoard &= ~flipMask per index). -/
def clearBitsList (b : Nat) (l : List Nat) : Nat :=
  l.foldl (fun acc i => acc &&& (UINT64MAX ^^^ (1 <<< i))) b

/-- Direction loop of Game::applyMove: for each direction, walk against the
CURRENT boards (the C++ mutates its local playerBoard and opponentBoard
between directions), then apply the flips of that direction. -/
def applyDirections (row column : Int) :
    List (Int × Int) → Nat → Nat → Nat × Nat
  | [], pB, oB => (pB, oB)
  | d :: ds, pB, oB =>
    let toFlip := flipWalk pB oB d.1 d.2 8 (row + d.1) (column + d.2) false []
    applyDirections row column ds (setBitsList pB toFlip)
      (clearBitsList oB toFlip)

/-- Game::applyMove from game.cpp: place the mover's piece, then run the
direction loop, then write the boards back according to the player. -/
def applyMove (white black : Nat) (boardPosition : Int × Int)
    (player : Player) : Nat × Nat :=
  let playerBoard := if player = Player.W then white else black
  let opponentBoard := if player = Player.W then black else white
  let row := boardPosition.1
  let column := boardPosition.2
  let index := squareIndex row column
  let mask := 1 <<< index
  let playerBoard := playerBoard ||| mask
  let result := applyDirections row column DIRECTIONS playerBoard opponentBoard
  if player = Player.W then (result.1, result.2) else (result.2, result.1)

/-- Row-major scan order of the 64 squares, shared by Game::hasValidMoves
and Opponent::getPossibleMoves (both iterate row 0..7, column 0..7). -/
def allBoardPositions : List (Int × Int) :=
  (List.range 8).flatMap fun row =>
    (List.range 8).map fun col => ((row : Int), (col : Int))

/-- Game::hasValidMoves from game.cpp: scan all squares, true on the first
valid move. -/
def hasValidMoves (white black : Nat) (player : Player) : Bool :=
  allBoardPositions.any fun pos => checkValidMove white black pos player

/-- Opponent::getPossibleMoves from opponent.cpp: collect all valid moves
in row-major scan order. -/
def getPossibleMoves (white black : Nat) (player : Player) :
    List (Int × Int) :=
  allBoardPositions.filter fun pos => checkValidMove white black pos player

/-- Population count of the low 64 bits, modelling __builtin_popcountll. -/
def popcount64 (n : Nat) : Nat :=
  ((List.range 64).filter fun i => n.testBit i).length

/-- Game::getScore from game.cpp: the two population counts. -/
def getScore (white black : Nat) : Int × Int :=
  ((popcount64 white : Int), (popcount64 black : Int))

/-- Error taxonomy of board.cpp: std::invalid_argument for a malformed
coordinate string, std::out_of_range for out-of-bounds coordinates. -/
inductive BoardError where
  | invalidFormat : BoardError
  | outOfRange : BoardError
deriving DecidableEq, Repr

/-- Function stringToBoardPosition from board.cpp: a two-character string
(letter column, digit row) to a zero-based (row, column) pair; throws
invalid_argument unless the length is exactly 2, out_of_range unless the
column is in 'a'..'h' and the row in '1'..'8'. -/
def stringToBoardPosition (position : List Char) :
    Except BoardError (Int × Int) :=
  match position with
  | [column, row] =>
    if column < 'a' ∨ 'h' < column ∨ row < '1' ∨ '8' < row then
      Except.error BoardError.outOfRange
    else
      Except.ok (((row.toNat : Int) - ('1'.toNat : Int)),
        ((column.toNat : Int) - ('a'.toNat : Int)))
  | _ => Except.error BoardError.invalidFormat

/-- Function boardPositionToString from board.cpp: (row, column) to the
two-character string, letter then digit. -/
def boardPositionToString (position : Int × Int) : List Char :=
  [Char.ofNat (position.2 + ('a'.toNat : Int)).toNat,
   Char.ofNat (position.1 + ('1'.toNat : Int)).toNat]

/-- Function changeBitOnBoard from board.cpp: sets or clears one bit; on
out-of-range coordinates it throws before touching the board, modelled by
returning the untouched board together with the error. -/
def changeBitOnBoard (board : Nat) (row column : Int) (value : Bool) :
    Nat × Option BoardError :=
  if row < 0 ∨ 8 ≤ row ∨ column < 0 ∨ 8 ≤ column then
    (board, some BoardError.outOfRange)
  else
    let index := squareIndex row column
    let mask := 1 <<< index
    if value then (board ||| mask, none)
    else (board &&& (UINT64MAX ^^^ mask), none)

/-- Function setupInitialPos from board.cpp, applied to the zero-initialised
Game fields: white at (3,3) and (4,4), black at (3,4) and (4,3). -/
def setupInitialPos : Nat × Nat :=
  let white := (changeBitOnBoard 0 3 3 true).1
  let white := (changeBitOnBoard white 4 4 true).1
  let black := (changeBitOnBoard 0 3 4 true).1
  let black := (changeBitOnBoard black 4 3 true).1
  (white, black)

/-- Opponent::opponent from opponent.cpp. -/
def opponent (player : Player) : Player :=
  if player = Player.W then Player.B else Player.W

/-- Corner list of Opponent::evaluateBoard. -/
def corners : List (Int × Int) := [(0, 0), (0, 7), (7, 0), (7, 7)]

/-- Opponent::evaluateBoard from opponent.cpp: material difference plus
corner control plus side control plus mobility (truncated division by 5,
as C++ int division truncates toward zero, hence Int.tdiv). -/
def evaluateBoard (white black : Nat) (player : Player) : Int :=
  let score := getScore white black
  let playerScore := if player = Player.W then score.1 else score.2
  let opponentScore := if player = Player.W then score.2 else score.1
  let cornerControl := corners.foldl (fun acc corner =>
    let bitPosition := squareIndex corner.1 corner.2
    if (player = Player.W ∧ white.testBit bitPosition) ∨
        (player = Player.B ∧ black.testBit bitPosition) then
      acc + CORNER_WEIGHT
    else if (player = Player.W ∧ black.testBit bitPosition) ∨
        (player = Player.B ∧ white.testBit bitPosition) then
      acc - CORNER_WEIGHT
    else acc) 0
  let sideControl := (List.range' 1 6).foldl (fun acc i =>
    let topBit := i
    let bottomBit := 7 * 8 + i
    let leftBit := i * 8
    let rightBit := i * 8 + 7
    if (player = Player.W ∧ (white.testBit topBit ∨ white.testBit leftBit ∨
          white.testBit bottomBit ∨ white.testBit rightBit)) ∨
        (player = Player.B ∧ (black.testBit topBit ∨ black.testBit leftBit ∨
          black.testBit bottomBit ∨ black.testBit rightBit)) then
      acc + SIDE_WEIGHT
    else if (player = Player.W ∧ (black.testBit topBit ∨ black.testBit leftBit ∨
          black.testBit bottomBit ∨ black.testBit rightBit)) ∨
        (player = Player.B ∧ (white.testBit topBit ∨ white.testBit leftBit ∨
          white.testBit bottomBit ∨ white.testBit rightBit)) then
      acc - SIDE_WEIGHT
    else acc) 0
  let playerMoves : Int := (getPossibleMoves white black player).length
  let opponentMoves : Int :=
    (getPossibleMoves white black (opponent player)).length
  let mobility := Int.tdiv (playerMoves - opponentMoves) 5
  playerScore - opponentScore + cornerControl + sideControl + mobility

/-- Maximizing branch of the candidate loop in Opponent::minimax: track the
best (strictly improving) score and move, raise alpha, and stop on the beta
cutoff; the child is invoked with the current alpha and beta. -/
def maximizeLoop (child : Int × Int → Int → Int → Int) :
    List (Int × Int) → Int → Int × Int → Int → Int → Int × (Int × Int)
  | [], maxEval, bestMove, _, _ => (maxEval, bestMove)
  | move :: moves, maxEval, bestMove, alpha, beta =>
    let eval := child move alpha beta
    let maxEval1 := if eval > maxEval then eval else maxEval
    let bestMove1 := if eval > maxEval then move else bestMove
    let alpha1 := max alpha eval
    if beta ≤ alpha1 then (maxEval1, bestMove1)
    else maximizeLoop child moves maxEval1 bestMove1 alpha1 beta

/-- Minimizing branch of the candidate loop in Opponent::minimax, the
mirror image of maximizeLoop. -/
def minimizeLoop (child : Int × Int → Int → Int → Int) :
    List (Int × Int) → Int → Int × Int → Int → Int → Int × (Int × Int)
  | [], minEval, bestMove, _, _ => (minEval, bestMove)
  | move :: moves, minEval, bestMove, alpha, beta =>
    let eval := child move alpha beta
    let minEval1 := if eval < minEval then eval else minEval
    let bestMove1 := if eval < minEval then move else bestMove
    let beta1 := min beta eval
    if beta1 ≤ alpha then (minEval1, bestMove1)
    else minimizeLoop child moves minEval1 bestMove1 alpha beta1

/-- Opponent::minimax from opponent.cpp: alpha-beta pruned minimax. At
depth 0 or with no valid move for the side to move, the static evaluation
and the sentinel move (-1, -1) are returned; otherwise the candidate moves
are scanned in row-major order by the pruning loops, each child evaluated
on a copy of the boards after the move, at depth - 1, for the opposite
player with the opposite maximizing flag. -/
def minimax (white black : Nat) (player : Player) (depth : Nat)
    (isMaximizing : Bool) (alpha beta : Int) : Int × (Int × Int) :=
  if h : depth = 0 ∨ hasValidMoves white black player = false then
    (evaluateBoard white black player, (-1, -1))
  else if isMaximizing then
    maximizeLoop (fun move a b =>
        let nb := applyMove white black move player
        (minimax nb.1 nb.2 (opponent player) (depth - 1) false a b).1)
      (getPossibleMoves white black player) INT_MIN (-1, -1) alpha beta
  else
    minimizeLoop (fun move a b =>
        let nb := applyMove white black move player
        (minimax nb.1 nb.2 (opponent player) (depth - 1) true a b).1)
      (getPossibleMoves white black player) INT_MAX (-1, -1) alpha beta
termination_by depth
decreasing_by all_goals (push_neg at h; omega)

/-- Flip list of a single direction, computed by the applyMove walk against
the given pair of masks. -/
def flipsForDirection (pB oB : Nat) (row column : Int) (d : Int × Int) :
    List Nat :=
  flipWalk pB oB d.1 d.2 8 (row + d.1) (column + d.2) false []

/-- Flip lists of all 8 directions, each computed against the same fixed
pair of masks (the pre-move snapshot), concatenated in direction order. -/
def allFlips (pB oB : Nat) (row column : Int) : List Nat :=
  DIRECTIONS.flatMap (flipsForDirection pB oB row column)

/-- Reference move application, following the words of the specification:
every direction is walked against the pre-move snapshot of both masks, the
flips of all directions are then applied together with the placed piece.
Compared against the progressive applyMove in the C2 theorem. -/
def applyMoveSnapshot (white black : Nat) (boardPosition : Int × Int)
    (player : Player) : Nat × Nat :=
  let pB := if player = Player.W then white else black
  let oB := if player = Player.W then black else white
  let row := boardPosition.1
  let column := boardPosition.2
  let mask := 1 <<< squareIndex row column
  let flips := allFlips pB oB row column
  let newPB := setBitsList (pB ||| mask) flips
  let newOB := clearBitsList oB flips
  if player = Player.W then (newPB, newOB) else (newOB, newPB)

/-- Candidate loop of the reference unpruned full minimax search, following
the words of the specification: identical to maximizeLoop (same enumeration
order, same strict-greater tie-break) but with no alpha update and no
cutoff, so every candidate is explored. -/
def fullMaximizeLoop (child : Int × Int → Int) :
    List (Int × Int) → Int → Int × Int → Int × (Int × Int)
  | [], maxEval, bestMove => (maxEval, bestMove)
  | move :: moves, maxEval, bestMove =>
    let eval := child move
    fullMaximizeLoop child moves (if eval > maxEval then eval else maxEval)
      (if eval > maxEval then move else bestMove)

/-- Minimizing candidate loop of the reference unpruned full minimax
search, the mirror image of fullMaximizeLoop. -/
def fullMinimizeLoop (child : Int × Int → Int) :
    List (Int × Int) → Int → Int × Int → Int × (Int × Int)
  | [], minEval, bestMove => (minEval, bestMove)
  | move :: moves, minEval, bestMove =>
    let eval := child move
    fullMinimizeLoop child moves (if eval < minEval then eval else minEval)
      (if eval < minEval then move else bestMove)

/-- Reference unpruned full minimax search, following the words of the
specification: identical to minimax except that no pruning is performed.
Compared against the pruned search in the C1 theorem. -/
def minimaxFull (white black : Nat) (player : Player) (depth : Nat)
    (isMaximizing : Bool) : Int × (Int × Int) :=
  if h : depth = 0 ∨ hasValidMoves white black player = false then
    (evaluateBoard white black player, (-1, -1))
  else if isMaximizing then
    fullMaximizeLoop (fun move =>
        let nb := applyMove white black move player
        (minimaxFull nb.1 nb.2 (opponent player) (depth - 1) false).1)
      (getPossibleMoves white black player) INT_MIN (-1, -1)
  else
    fullMinimizeLoop (fun move =>
        let nb := applyMove white black move player
        (minimaxFull nb.1 nb.2 (opponent player) (depth - 1) true).1)
      (getPossibleMoves white black player) INT_MAX (-1, -1)
termination_by depth
decreasing_by all_goals (push_neg at h; omega)

/-! Helper lemmas. -/

/-- Character order agrees with the order of the code points. -/
theorem char_le_toNat (a b : Char) : a ≤ b ↔ a.toNat ≤ b.toNat := ge_iff_le

/-- Strict character order agrees with the order of the code points. -/
theorem char_lt_toNat (a b : Char) : a < b ↔ a.toNat < b.toNat := gt_iff_lt

/-- Mask test used throughout game.cpp, board & (1ULL << index), as a bit
test. -/
theorem land_shiftLeft_ne_zero (n i : Nat) :
    n &&& (1 <<< i) ≠ 0 ↔ n.testBit i := by
  rw [Nat.one_shiftLeft, Nat.and_two_pow]
  simp [pow_ne_zero, Bool.toNat_eq_zero]

/-- Mover's mask for a player, the selection (player == 'W') ? white :
black made by every game.cpp function. -/
def playerBoardOf (white black : Nat) (player : Player) : Nat :=
  if player = Player.W then white else black

/-- Opponent's mask for a player, the selection (player == 'W') ? black :
white made by every game.cpp function. -/
def opponentBoardOf (white black : Nat) (player : Player) : Nat :=
  if player = Player.W then black else white

/-- Disjointness of two masks expressed per bit. -/
theorem land_eq_zero_iff_testBit (a b : Nat) :
    a &&& b = 0 ↔ ∀ i, ¬(a.testBit i ∧ b.testBit i) := by
  constructor
  · intro h i hi
    have := congrArg (fun n => n.testBit i) h
    simp only [Nat.testBit_land, Nat.zero_testBit] at this
    rw [hi.1, hi.2] at this
    simp at this
  · intro h
    apply Nat.eq_of_testBit_eq
    intro i
    simp only [Nat.testBit_land, Nat.zero_testBit]
    rcases Bool.eq_false_or_eq_true (a.testBit i) with ha | ha <;>
      rcases Bool.eq_false_or_eq_true (b.testBit i) with hb | hb <;>
      simp [ha, hb]
    exact h i ⟨ha, hb⟩

/-- Arithmetic of consecutive ray positions. -/
theorem step_shift (x d : Int) (k : Nat) :
    x + ((k : Int) + 1) * d = (x + d) + (k : Int) * d := by ring

/-- Characterisation of the validWalk traversal: starting at (r, c) it
succeeds within its fuel exactly when an initial run of in-range
opponent-occupied squares (of length m, empty only if hasOpp is already
set) is followed by an in-range square held by the mover and not by the
opponent. -/
theorem validWalk_iff (pB oB : Nat) (dR dC : Int) :
    ∀ (fuel : Nat) (r c : Int) (hasOpp : Bool),
    validWalk pB oB dR dC fuel r c hasOpp = true ↔
      ∃ m : Nat, m < fuel ∧ (hasOpp = true ∨ 1 ≤ m) ∧
        (∀ k : Nat, k < m → inBoard (r + k * dR) (c + k * dC) ∧
          oB.testBit (squareIndex (r + k * dR) (c + k * dC))) ∧
        inBoard (r + m * dR) (c + m * dC) ∧
        pB.testBit (squareIndex (r + m * dR) (c + m * dC)) ∧
        ¬ oB.testBit (squareIndex (r + m * dR) (c + m * dC)) := by
  intro fuel
  induction fuel with
  | zero =>
    intro r c hasOpp
    simp only [validWalk]
    constructor
    · intro h; simp at h
    · rintro ⟨m, hm, -⟩; omega
  | succ fuel ih =>
    intro r c hasOpp
    simp only [validWalk]
    by_cases hin : inBoard r c
    · rw [if_pos hin]
      by_cases ho : oB.testBit (squareIndex r c)
      · rw [if_pos ho, ih]
        constructor
        · rintro ⟨m, hm, -, hrun, hterm, hp, hno⟩
          refine ⟨m + 1, by omega, by omega, ?_, ?_, ?_, ?_⟩
          · intro k hk
            rcases Nat.eq_zero_or_pos k with rfl | hk1
            · simpa using ⟨hin, ho⟩
            · obtain ⟨k', rfl⟩ := Nat.exists_eq_add_of_le hk1
              rw [Nat.add_comm 1 k', Nat.cast_add, Nat.cast_one,
                step_shift r dR k', step_shift c dC k']
              exact hrun k' (by omega)
          · rw [Nat.cast_add, Nat.cast_one, step_shift r dR m,
              step_shift c dC m]
            exact hterm
          · rw [Nat.cast_add, Nat.cast_one, step_shift r dR m,
              step_shift c dC m]
            exact hp
          · rw [Nat.cast_add, Nat.cast_one, step_shift r dR m,
              step_shift c dC m]
            exact hno
        · rintro ⟨m, hm, -, hrun, hterm, hp, hno⟩
          rcases Nat.eq_zero_or_pos m with rfl | hm1
          · exfalso
            apply hno
            simpa using ho
          · obtain ⟨m', rfl⟩ := Nat.exists_eq_add_of_le hm1
            rw [Nat.add_comm 1 m', Nat.cast_add, Nat.cast_one,
              step_shift r dR m', step_shift c dC m'] at hterm hp hno
            refine ⟨m', by omega, Or.inl rfl, ?_, hterm, hp, hno⟩
            intro k hk
            have := hrun (k + 1) (by omega)
            rw [Nat.cast_add, Nat.cast_one, step_shift r dR k,
              step_shift c dC k] at this
            exact this
      · rw [if_neg ho]
        by_cases hp : pB.testBit (squareIndex r c)
        · rw [if_pos hp]
          constructor
          · intro h
            refine ⟨0, by omega, Or.inl h, fun k hk => absurd hk (by omega),
              ?_, ?_, ?_⟩
            · simpa using hin
            · simpa using hp
            · simpa using ho
          · rintro ⟨m, hm, hOpp, hrun, hterm, hp2, hno⟩
            rcases Nat.eq_zero_or_pos m with rfl | hm1
            · rcases hOpp with h | h
              · exact h
              · omega
            · exfalso
              apply ho
              have := (hrun 0 (by omega)).2
              simpa using this
        · rw [if_neg hp]
          constructor
          · intro h; simp at h
          · rintro ⟨m, hm, hOpp, hrun, hterm, hp2, hno⟩
            rcases Nat.eq_zero_or_pos m with rfl | hm1
            · exact absurd (by simpa using hp2) hp
            · exact absurd (by simpa using (hrun 0 (by omega)).2) ho
    · rw [if_neg hin]
      constructor
      · intro h; simp at h
      · rintro ⟨m, hm, hOpp, hrun, hterm, -⟩
        rcases Nat.eq_zero_or_pos m with rfl | hm1
        · exact absurd (by simpa using hterm) hin
        · exact absurd (by simpa using (hrun 0 (by omega)).1) hin

/-- Walking any of the 8 directions from an in-range square stays in range
for at most 7 steps: if step m + 1 is still in range then m < 7. -/
theorem ray_exit_bound (d : Int × Int) (hd : d ∈ DIRECTIONS)
    (row column : Int) (h1 : 0 ≤ row) (h2 : row < 8) (h3 : 0 ≤ column)
    (h4 : column < 8) (m : Nat)
    (hm : inBoard (row + ((m : Int) + 1) * d.1)
      (column + ((m : Int) + 1) * d.2)) : m < 7 := by
  simp only [DIRECTIONS] at hd
  unfold inBoard at hm
  fin_cases hd <;> simp at hm <;> omega

/-- Specification predicate of a legal outflank in one direction, following
the words of the claim: a non-empty contiguous run of opponent-occupied
squares starting adjacent to the target, terminated by a mover-occupied,
in-range square. -/
def legalDirectionSpec (pB oB : Nat) (row column : Int) (d : Int × Int) :
    Prop :=
  ∃ n : Nat, 1 ≤ n ∧
    (∀ k : Nat, 1 ≤ k → k ≤ n →
      inBoard (row + (k : Int) * d.1) (column + (k : Int) * d.2) ∧
      oB.testBit (squareIndex (row + (k : Int) * d.1)
        (column + (k : Int) * d.2))) ∧
    inBoard (row + ((n : Int) + 1) * d.1) (column + ((n : Int) + 1) * d.2) ∧
    pB.testBit (squareIndex (row + ((n : Int) + 1) * d.1)
      (column + ((n : Int) + 1) * d.2))

/-- Per-direction agreement between the checkValidMove walk and the
specification predicate, for disjoint masks and an in-range target. -/
theorem validWalk_legalDirectionSpec (pB oB : Nat) (row column : Int)
    (d : Int × Int) (hd : d ∈ DIRECTIONS) (hdisj : pB &&& oB = 0)
    (h1 : 0 ≤ row) (h2 : row < 8) (h3 : 0 ≤ column) (h4 : column < 8) :
    (validWalk pB oB d.1 d.2 8 (row + d.1) (column + d.2) false = true ↔
      legalDirectionSpec pB oB row column d) := by
  rw [validWalk_iff]
  unfold legalDirectionSpec
  constructor
  · rintro ⟨m, hm, hOpp, hrun, hterm, hp, hno⟩
    rw [← step_shift row d.1 m, ← step_shift column d.2 m] at hterm hp
    refine ⟨m, hOpp.resolve_left (by simp), ?_, hterm, hp⟩
    intro k hk1 hk2
    obtain ⟨k', rfl⟩ := Nat.exists_eq_add_of_le hk1
    rw [Nat.add_comm 1 k', Nat.cast_add, Nat.cast_one,
      step_shift row d.1 k', step_shift column d.2 k']
    exact hrun k' (by omega)
  · rintro ⟨n, hn, hrun, hterm, hp⟩
    have hbound : n < 7 :=
      ray_exit_bound d hd row column h1 h2 h3 h4 n hterm
    rw [step_shift row d.1 n, step_shift column d.2 n] at hterm hp
    refine ⟨n, by omega, Or.inr hn, ?_, hterm, hp, ?_⟩
    · intro k hk
      have := hrun (k + 1) (by omega) (by omega)
      rw [Nat.cast_add, Nat.cast_one, step_shift row d.1 k,
        step_shift column d.2 k] at this
      exact this
    · intro hcontra
      exact (land_eq_zero_iff_testBit pB oB).mp hdisj _ ⟨hp, hcontra⟩

/-! Bit-level behaviour of the flip application primitives. -/

/-- Bit j of a single-bit mask. -/
theorem testBit_one_shiftLeft (i j : Nat) :
    (1 <<< i).testBit j = decide (i = j) := by
  rw [Nat.one_shiftLeft, Nat.testBit_two_pow]

/-- Setting a list of bits sets exactly the bits of the list. -/
theorem testBit_setBitsList (l : List Nat) :
    ∀ (b : Nat) (j : Nat),
      (setBitsList b l).testBit j = (b.testBit j || decide (j ∈ l)) := by
  induction l with
  | nil => intro b j; simp [setBitsList]
  | cons i t ih =>
    intro b j
    show (setBitsList (b ||| (1 <<< i)) t).testBit j = _
    rw [ih, Nat.testBit_lor, testBit_one_shiftLeft]
    rcases Bool.eq_false_or_eq_true (b.testBit j) with hb | hb <;>
      simp [hb, List.mem_cons, eq_comm]

/-- Clearing a list of bits clears exactly the bits of the list, on the
low 64 bits (the C++ masks are 64 bits wide). -/
theorem testBit_clearBitsList (l : List Nat) :
    ∀ (b : Nat) (j : Nat), j < 64 →
      (clearBitsList b l).testBit j = (b.testBit j && !decide (j ∈ l)) := by
  induction l with
  | nil => intro b j hj; simp [clearBitsList]
  | cons i t ih =>
    intro b j hj
    show (clearBitsList (b &&& (UINT64MAX ^^^ (1 <<< i))) t).testBit j = _
    rw [ih _ _ hj, Nat.testBit_land, Nat.testBit_xor, testBit_one_shiftLeft]
    have hm : UINT64MAX.testBit j = true := by
      rw [UINT64MAX, Nat.testBit_two_pow_sub_one]
      simpa using hj
    rw [hm]
    rcases Bool.eq_false_or_eq_true (b.testBit j) with hb | hb <;>
      simp [hb, List.mem_cons, eq_comm]

/-- Every index produced by a flipWalk either came from the accumulator or
is an opponent-occupied in-range square at some step of the walk. -/
theorem flipWalk_subset (pB oB : Nat) (dR dC : Int) :
    ∀ (fuel : Nat) (r c : Int) (hasOpp : Bool) (acc : List Nat) (x : Nat),
      x ∈ flipWalk pB oB dR dC fuel r c hasOpp acc →
      x ∈ acc ∨ ∃ k : Nat, k < fuel ∧
        inBoard (r + k * dR) (c + k * dC) ∧
        x = squareIndex (r + k * dR) (c + k * dC) ∧
        oB.testBit x = true := by
  intro fuel
  induction fuel with
  | zero => intro r c hasOpp acc x hx; simp [flipWalk] at hx
  | succ fuel ih =>
    intro r c hasOpp acc x hx
    simp only [flipWalk] at hx
    by_cases hin : inBoard r c
    · rw [if_pos hin] at hx
      by_cases ho : oB.testBit (squareIndex r c)
      · rw [if_pos ho] at hx
        rcases ih (r + dR) (c + dC) true (acc ++ [squareIndex r c]) x hx with
          hacc | ⟨k, hk, hkin, hkx, hko⟩
        · rcases List.mem_append.mp hacc with h | h
          · exact Or.inl h
          · refine Or.inr ⟨0, by omega, ?_, ?_, ?_⟩
            · simpa using hin
            · simpa using List.mem_singleton.mp h
            · rw [List.mem_singleton.mp h]; exact ho
        · refine Or.inr ⟨k + 1, by omega, ?_, ?_, hko⟩
          · rw [Nat.cast_add, Nat.cast_one, step_shift r dR k,
              step_shift c dC k]
            exact hkin
          · rw [Nat.cast_add, Nat.cast_one, step_shift r dR k,
              step_shift c dC k]
            exact hkx
      · rw [if_neg ho] at hx
        by_cases hp : pB.testBit (squareIndex r c)
        · rw [if_pos hp] at hx
          by_cases hOpp : hasOpp
          · rw [if_pos hOpp] at hx; exact Or.inl hx
          · rw [if_neg hOpp] at hx; simp at hx
        · rw [if_neg hp] at hx; simp at hx
    · rw [if_neg hin] at hx; simp at hx

/-- The flipWalk reads only the squares along its own ray: two pairs of
masks agreeing on all in-range squares of the ray produce the same flip
list. -/
theorem flipWalk_congr (pB1 oB1 pB2 oB2 : Nat) (dR dC : Int) :
    ∀ (fuel : Nat) (r c : Int) (hasOpp : Bool) (acc : List Nat),
      (∀ k : Nat, k < fuel → inBoard (r + k * dR) (c + k * dC) →
        pB1.testBit (squareIndex (r + k * dR) (c + k * dC)) =
          pB2.testBit (squareIndex (r + k * dR) (c + k * dC)) ∧
        oB1.testBit (squareIndex (r + k * dR) (c + k * dC)) =
          oB2.testBit (squareIndex (r + k * dR) (c + k * dC))) →
      flipWalk pB1 oB1 dR dC fuel r c hasOpp acc =
        flipWalk pB2 oB2 dR dC fuel r c hasOpp acc := by
  intro fuel
  induction fuel with
  | zero => intro r c hasOpp acc hagree; rfl
  | succ fuel ih =>
    intro r c hasOpp acc hagree
    simp only [flipWalk]
    by_cases hin : inBoard r c
    · rw [if_pos hin, if_pos hin]
      have h0 := hagree 0 (by omega) (by simpa using hin)
      simp only [Nat.cast_zero, zero_mul, add_zero] at h0
      rw [← h0.1, ← h0.2]
      by_cases ho : oB1.testBit (squareIndex r c)
      · rw [if_pos ho, if_pos ho]
        apply ih
        intro k hk hkin
        have := hagree (k + 1) (by omega) (by
          rw [Nat.cast_add, Nat.cast_one, step_shift r dR k,
            step_shift c dC k]
          exact hkin)
        rw [Nat.cast_add, Nat.cast_one, step_shift r dR k,
          step_shift c dC k] at this
        exact this
      · rw [if_neg ho, if_neg ho]
    · rw [if_neg hin, if_neg hin]

/-! Geometry of the 8 rays leaving one square. -/

/-- Square indices of in-range squares are below 64. -/
theorem squareIndex_lt (r c : Int) (h : inBoard r c) : squareIndex r c < 64 := by
  obtain ⟨h1, h2, h3, h4⟩ := h
  unfold squareIndex
  omega

/-- Square indices are injective on in-range squares. -/
theorem squareIndex_inj (r c r2 c2 : Int) (h : inBoard r c)
    (h2 : inBoard r2 c2) (heq : squareIndex r c = squareIndex r2 c2) :
    r = r2 ∧ c = c2 := by
  obtain ⟨a1, a2, a3, a4⟩ := h
  obtain ⟨b1, b2, b3, b4⟩ := h2
  unfold squareIndex at heq
  omega

/-- Distinct directions never revisit the same square: positive steps along
two different direction vectors lead to different coordinates. -/
theorem ray_squares_distinct (d1 d2 : Int × Int) (hd1 : d1 ∈ DIRECTIONS)
    (hd2 : d2 ∈ DIRECTIONS) (hne : d1 ≠ d2) (row column : Int)
    (k1 k2 : Nat) (hk1 : 1 ≤ k1) (hk2 : 1 ≤ k2) :
    ¬(row + k1 * d1.1 = row + k2 * d2.1 ∧
      column + k1 * d1.2 = column + k2 * d2.2) := by
  simp only [DIRECTIONS, List.mem_cons, List.not_mem_nil, or_false] at hd1 hd2
  rcases hd1 with rfl | rfl | rfl | rfl | rfl | rfl | rfl | rfl <;>
    rcases hd2 with rfl | rfl | rfl | rfl | rfl | rfl | rfl | rfl <;>
    first
      | exact absurd rfl hne
      | (rintro ⟨e1, e2⟩; omega)

/-- A positive step along a direction vector leaves the origin square. -/
theorem ray_ne_origin (d : Int × Int) (hd : d ∈ DIRECTIONS)
    (row column : Int) (k : Nat) (hk : 1 ≤ k) :
    ¬(row + k * d.1 = row ∧ column + k * d.2 = column) := by
  simp only [DIRECTIONS, List.mem_cons, List.not_mem_nil, or_false] at hd
  rcases hd with rfl | rfl | rfl | rfl | rfl | rfl | rfl | rfl <;>
    (rintro ⟨e1, e2⟩; omega)

/-- Membership in a single direction's snapshot flip list: every flipped
index is an opponent-occupied in-range square a positive number of steps
along the ray. -/
theorem flipsForDirection_mem (pBs oBs : Nat) (row column : Int)
    (d : Int × Int) (x : Nat)
    (hx : x ∈ flipsForDirection pBs oBs row column d) :
    ∃ k : Nat, 1 ≤ k ∧ inBoard (row + k * d.1) (column + k * d.2) ∧
      x = squareIndex (row + k * d.1) (column + k * d.2) ∧
      oBs.testBit x = true := by
  rcases flipWalk_subset pBs oBs d.1 d.2 8 (row + d.1) (column + d.2)
      false [] x hx with h | ⟨k, hk, hkin, hkx, hko⟩
  · simp at h
  · rw [← step_shift row d.1 k, ← step_shift column d.2 k] at hkin hkx
    refine ⟨k + 1, by omega, ?_, ?_, hko⟩
    · rw [Nat.cast_add, Nat.cast_one]; exact hkin
    · rw [Nat.cast_add, Nat.cast_one]; exact hkx

/-- Direction loop against the snapshot: as long as the current masks
agree with the snapshot masks on every in-range square of every remaining
ray, the progressive loop applies exactly the snapshot flip lists of the
remaining directions. -/
theorem applyDirections_snapshot (row column : Int) (pBs oBs : Nat) :
    ∀ ds : List (Int × Int), ds.Nodup → (∀ d ∈ ds, d ∈ DIRECTIONS) →
    ∀ pB oB : Nat,
      (∀ d ∈ ds, ∀ k : Nat, 1 ≤ k →
        inBoard (row + k * d.1) (column + k * d.2) →
        pB.testBit (squareIndex (row + k * d.1) (column + k * d.2)) =
          pBs.testBit (squareIndex (row + k * d.1) (column + k * d.2)) ∧
        oB.testBit (squareIndex (row + k * d.1) (column + k * d.2)) =
          oBs.testBit (squareIndex (row + k * d.1) (column + k * d.2))) →
      applyDirections row column ds pB oB =
        (setBitsList pB (ds.flatMap (flipsForDirection pBs oBs row column)),
          clearBitsList oB
            (ds.flatMap (flipsForDirection pBs oBs row column))) := by
  intro ds
  induction ds with
  | nil => intro _ _ pB oB _; rfl
  | cons d ds ih =>
    intro hnodup hsub pB oB hagree
    have hdDir : d ∈ DIRECTIONS := hsub d (List.mem_cons_self d ds)
    have hflEq : flipWalk pB oB d.1 d.2 8 (row + d.1) (column + d.2) false []
        = flipsForDirection pBs oBs row column d := by
      apply flipWalk_congr
      intro k hk hkin
      rw [← step_shift row d.1 k, ← step_shift column d.2 k] at hkin ⊢
      have h := hagree d (List.mem_cons_self d ds) (k + 1) (by omega)
        (by rw [Nat.cast_add, Nat.cast_one]; exact hkin)
      rw [Nat.cast_add, Nat.cast_one] at h
      exact h
    show applyDirections row column ds
        (setBitsList pB (flipWalk pB oB d.1 d.2 8 (row + d.1)
          (column + d.2) false []))
        (clearBitsList oB (flipWalk pB oB d.1 d.2 8 (row + d.1)
          (column + d.2) false [])) = _
    rw [hflEq]
    have hmem := flipsForDirection_mem pBs oBs row column d
    have hnotray : ∀ d2 ∈ ds, ∀ k : Nat, 1 ≤ k →
        inBoard (row + k * d2.1) (column + k * d2.2) →
        ¬(squareIndex (row + k * d2.1) (column + k * d2.2) ∈
          flipsForDirection pBs oBs row column d) := by
      intro d2 hd2 k hk hkin hxmem
      obtain ⟨k2, hk2, hk2in, hk2x, -⟩ := hmem _ hxmem
      have hne : d ≠ d2 := by
        intro h
        rw [h] at hnodup
        exact (List.nodup_cons.mp hnodup).1 hd2
      have := squareIndex_inj _ _ _ _ hkin hk2in hk2x
      exact ray_squares_distinct d d2 hdDir (hsub d2 (List.mem_cons_of_mem d hd2))
        hne row column k2 k hk2 hk ⟨this.1.symm, this.2.symm⟩
    rw [ih (List.nodup_cons.mp hnodup).2
      (fun d2 hd2 => hsub d2 (List.mem_cons_of_mem d hd2)) _ _ ?hagree2]
    case hagree2 =>
      intro d2 hd2 k hk hkin
      have hidx := squareIndex_lt _ _ hkin
      constructor
      · rw [testBit_setBitsList]
        have : decide (squareIndex (row + k * d2.1) (column + k * d2.2) ∈
            flipsForDirection pBs oBs row column d) = false := by
          simpa using hnotray d2 hd2 k hk hkin
        rw [this, Bool.or_false]
        exact (hagree d2 (List.mem_cons_of_mem d hd2) k hk hkin).1
      · rw [testBit_clearBitsList _ _ _ hidx]
        have : decide (squareIndex (row + k * d2.1) (column + k * d2.2) ∈
            flipsForDirection pBs oBs row column d) = false := by
          simpa using hnotray d2 hd2 k hk hkin
        rw [this]
        simp only [Bool.not_false, Bool.and_true]
        exact (hagree d2 (List.mem_cons_of_mem d hd2) k hk hkin).2
    rw [List.flatMap_cons]
    unfold setBitsList clearBitsList
    rw [List.foldl_append, List.foldl_append]

/-- Every index of the full snapshot flip list is an in-range
opponent-occupied square distinct from the target square. -/
theorem allFlips_mem (pB0 oB0 : Nat) (row column : Int) (h1 : 0 ≤ row)
    (h2 : row < 8) (h3 : 0 ≤ column) (h4 : column < 8) (x : Nat)
    (hx : x ∈ allFlips pB0 oB0 row column) :
    x < 64 ∧ oB0.testBit x = true ∧ x ≠ squareIndex row column := by
  obtain ⟨d, hd, hxd⟩ := List.mem_flatMap.mp hx
  obtain ⟨k, hk, hkin, hkx, hko⟩ :=
    flipsForDirection_mem pB0 oB0 row column d x hxd
  refine ⟨hkx ▸ squareIndex_lt _ _ hkin, hko, ?_⟩
  intro heq
  rw [hkx] at heq
  have := squareIndex_inj _ _ _ _ hkin ⟨h1, h2, h3, h4⟩ heq
  exact ray_ne_origin d hd row column k hk this

/-- Progressive flip application computes the snapshot flip lists: the
masks written back by applyMove are the pre-move masks with the placed
piece set and the full snapshot flip list applied. -/
theorem applyMove_masks (white black : Nat) (row column : Int)
    (player : Player) (h1 : 0 ≤ row) (h2 : row < 8) (h3 : 0 ≤ column)
    (h4 : column < 8) :
    playerBoardOf (applyMove white black (row, column) player).1
        (applyMove white black (row, column) player).2 player =
      setBitsList (playerBoardOf white black player |||
          (1 <<< squareIndex row column))
        (allFlips (playerBoardOf white black player)
          (opponentBoardOf white black player) row column) ∧
    opponentBoardOf (applyMove white black (row, column) player).1
        (applyMove white black (row, column) player).2 player =
      clearBitsList (opponentBoardOf white black player)
        (allFlips (playerBoardOf white black player)
          (opponentBoardOf white black player) row column) := by
  have main : ∀ pB0 oB0 : Nat,
      applyDirections row column DIRECTIONS
        (pB0 ||| (1 <<< squareIndex row column)) oB0 =
        (setBitsList (pB0 ||| (1 <<< squareIndex row column))
          (allFlips pB0 oB0 row column),
          clearBitsList oB0 (allFlips pB0 oB0 row column)) := by
    intro pB0 oB0
    apply applyDirections_snapshot row column pB0 oB0 DIRECTIONS
      (by decide) (fun d hd => hd)
    intro d hd k hk hkin
    constructor
    · rw [Nat.testBit_lor, testBit_one_shiftLeft]
      have hne : decide (squareIndex row column =
          squareIndex (row + k * d.1) (column + k * d.2)) = false := by
        simp only [decide_eq_false_iff_not]
        intro heq
        have := squareIndex_inj _ _ _ _ ⟨h1, h2, h3, h4⟩ hkin heq
        exact ray_ne_origin d hd row column k hk
          ⟨this.1.symm, this.2.symm⟩
      rw [hne, Bool.or_false]
    · rfl
  cases player <;>
    simp only [applyMove, playerBoardOf, opponentBoardOf] <;>
    simp [main white black, main black white]

/-! Claim C2: progressive flip application equals the snapshot reference. -/

/-- C2: for every pair of masks, every in-range target square and every
player, the progressive applyMove (which updates its local masks between
directions) returns exactly the result of the snapshot reference that
walks all 8 directions against the pre-move masks. -/
theorem applyMove_eq_snapshot (white black : Nat) (row column : Int)
    (player : Player) (h1 : 0 ≤ row) (h2 : row < 8) (h3 : 0 ≤ column)
    (h4 : column < 8) :
    applyMove white black (row, column) player =
      applyMoveSnapshot white black (row, column) player := by
  have h := applyMove_masks white black row column player h1 h2 h3 h4
  cases player <;>
    simp only [playerBoardOf, opponentBoardOf, if_pos, if_neg,
      reduceCtorEq, reduceIte] at h <;>
    · simp only [applyMoveSnapshot]
      rw [Prod.ext_iff]
      constructor
      · first | simpa using h.1 | simpa using h.2
      · first | simpa using h.1 | simpa using h.2

/-- Witness for C2 at a concrete input: black to move at d3 (row 2,
column 3) on the initial position. -/
theorem applyMove_eq_snapshot_witness :
    applyMove setupInitialPos.1 setupInitialPos.2 (2, 3) Player.B =
      applyMoveSnapshot setupInitialPos.1 setupInitialPos.2 (2, 3)
        Player.B :=
  applyMove_eq_snapshot setupInitialPos.1 setupInitialPos.2 2 3 Player.B
    (by omega) (by omega) (by omega) (by omega)

/-- Clearing bits never creates a set bit. -/
theorem testBit_clearBitsList_mono (l : List Nat) :
    ∀ (b : Nat) (j : Nat), (clearBitsList b l).testBit j = true →
      b.testBit j = true := by
  induction l with
  | nil => intro b j h; exact h
  | cons i t ih =>
    intro b j h
    have := ih (b &&& (UINT64MAX ^^^ (1 <<< i))) j h
    rw [Nat.testBit_land, Bool.and_eq_true] at this
    exact this.1

/-- Per-bit description of the masks after applyMove: the mover's mask
gains the target square and the snapshot flips, the opponent's mask loses
the snapshot flips (on the 64-bit width). -/
theorem applyMove_testBit (white black : Nat) (row column : Int)
    (player : Player) (h1 : 0 ≤ row) (h2 : row < 8) (h3 : 0 ≤ column)
    (h4 : column < 8) (j : Nat) :
    (playerBoardOf (applyMove white black (row, column) player).1
        (applyMove white black (row, column) player).2 player).testBit j =
      ((playerBoardOf white black player).testBit j ||
        decide (squareIndex row column = j) ||
        decide (j ∈ allFlips (playerBoardOf white black player)
          (opponentBoardOf white black player) row column)) ∧
    (j < 64 →
      (opponentBoardOf (applyMove white black (row, column) player).1
          (applyMove white black (row, column) player).2 player).testBit j =
        ((opponentBoardOf white black player).testBit j &&
          !decide (j ∈ allFlips (playerBoardOf white black player)
            (opponentBoardOf white black player) row column))) := by
  obtain ⟨hp, ho⟩ := applyMove_masks white black row column player h1 h2 h3 h4
  constructor
  · rw [hp, testBit_setBitsList, Nat.testBit_lor, testBit_one_shiftLeft]
  · intro hj
    rw [ho, testBit_clearBitsList _ _ _ hj]

/-- A successful legality check implies the target square is unoccupied. -/
theorem checkValidMove_unoccupied (white black : Nat) (row column : Int)
    (player : Player)
    (h : checkValidMove white black (row, column) player = true) :
    (playerBoardOf white black player).testBit (squareIndex row column)
        = false ∧
      (opponentBoardOf white black player).testBit (squareIndex row column)
        = false := by
  by_cases hocc : (playerBoardOf white black player) &&&
        (1 <<< squareIndex row column) ≠ 0 ∨
      (opponentBoardOf white black player) &&&
        (1 <<< squareIndex row column) ≠ 0
  · exfalso
    have : checkValidMove white black (row, column) player = false := by
      cases player <;>
        · simp only [checkValidMove]
          rw [if_pos (by simpa [playerBoardOf, opponentBoardOf] using hocc)]
    rw [this] at h
    exact Bool.false_ne_true h
  · push_neg at hocc
    constructor
    · rw [← Bool.not_eq_true]
      intro hbit
      exact absurd ((land_shiftLeft_ne_zero _ _).mpr hbit) (by simpa using hocc.1)
    · rw [← Bool.not_eq_true]
      intro hbit
      exact absurd ((land_shiftLeft_ne_zero _ _).mpr hbit) (by simpa using hocc.2)

/-- Core disjointness preservation: if the masks are disjoint and the
target square is not held by the opponent, the masks after applyMove are
again disjoint. -/
theorem applyMove_disjoint_core (white black : Nat) (row column : Int)
    (player : Player) (hdisj : white &&& black = 0) (h1 : 0 ≤ row)
    (h2 : row < 8) (h3 : 0 ≤ column) (h4 : column < 8)
    (hto : (opponentBoardOf white black player).testBit
      (squareIndex row column) = false) :
    (applyMove white black (row, column) player).1 &&&
      (applyMove white black (row, column) player).2 = 0 := by
  have hpo : ∀ i, ¬((playerBoardOf white black player).testBit i ∧
      (opponentBoardOf white black player).testBit i) := by
    cases player
    · exact (land_eq_zero_iff_testBit _ _).mp hdisj
    · intro i hi
      exact (land_eq_zero_iff_testBit _ _).mp hdisj i ⟨hi.2, hi.1⟩
  have key : ∀ j, ¬((playerBoardOf (applyMove white black (row, column)
        player).1 (applyMove white black (row, column) player).2
        player).testBit j ∧
      (opponentBoardOf (applyMove white black (row, column) player).1
        (applyMove white black (row, column) player).2 player).testBit j) := by
    rintro j ⟨hjp, hjo⟩
    obtain ⟨hcp, hco⟩ :=
      applyMove_testBit white black row column player h1 h2 h3 h4 j
    obtain ⟨hpmask, homask⟩ :=
      applyMove_masks white black row column player h1 h2 h3 h4
    have hjo0 : (opponentBoardOf white black player).testBit j = true := by
      apply testBit_clearBitsList_mono _ _ j
      rw [← homask]
      exact hjo
    rw [hcp, Bool.or_eq_true, Bool.or_eq_true] at hjp
    rcases hjp with hjp2 | hjp2
    · rcases hjp2 with hjp3 | hjp3
      · exact hpo j ⟨hjp3, hjo0⟩
      · have : squareIndex row column = j := of_decide_eq_true hjp3
        rw [← this] at hjo0
        rw [hjo0] at hto
        exact absurd hto (by simp)
    · have hjF : j ∈ allFlips (playerBoardOf white black player)
          (opponentBoardOf white black player) row column :=
        of_decide_eq_true hjp2
      have hj64 := (allFlips_mem _ _ row column h1 h2 h3 h4 j hjF).1
      rw [hco hj64, decide_eq_true hjF] at hjo
      simp at hjo
  cases player
  · apply (land_eq_zero_iff_testBit _ _).mpr
    intro i hi
    exact key i (by
      simpa [playerBoardOf, opponentBoardOf] using hi)
  · apply (land_eq_zero_iff_testBit _ _).mpr
    intro i hi
    exact key i (by
      simpa [playerBoardOf, opponentBoardOf] using And.intro hi.2 hi.1)

/-! Claim C10: applyMove preserves disjointness even on moves the legality
check would reject, as long as the target is not opponent-held. -/

/-- C10: for disjoint masks and an in-range target square not occupied by
the opponent — including squares where the move is illegal — applyMove
keeps the two masks disjoint, and the placed disc and every flipped square
end up set in the mover's mask and cleared in the opponent's mask. -/
theorem applyMove_preserves_disjointness (white black : Nat)
    (row column : Int) (player : Player) (hdisj : white &&& black = 0)
    (h1 : 0 ≤ row) (h2 : row < 8) (h3 : 0 ≤ column) (h4 : column < 8)
    (hto : (opponentBoardOf white black player).testBit
      (squareIndex row column) = false) :
    ((applyMove white black (row, column) player).1 &&&
      (applyMove white black (row, column) player).2 = 0) ∧
    (playerBoardOf (applyMove white black (row, column) player).1
        (applyMove white black (row, column) player).2 player).testBit
      (squareIndex row column) = true ∧
    (opponentBoardOf (applyMove white black (row, column) player).1
        (applyMove white black (row, column) player).2 player).testBit
      (squareIndex row column) = false ∧
    (∀ j ∈ allFlips (playerBoardOf white black player)
        (opponentBoardOf white black player) row column,
      (playerBoardOf (applyMove white black (row, column) player).1
          (applyMove white black (row, column) player).2 player).testBit j
        = true ∧
      (opponentBoardOf (applyMove white black (row, column) player).1
          (applyMove white black (row, column) player).2 player).testBit j
        = false) := by
  have ht64 : squareIndex row column < 64 :=
    squareIndex_lt row column ⟨h1, h2, h3, h4⟩
  refine ⟨applyMove_disjoint_core white black row column player hdisj
    h1 h2 h3 h4 hto, ?_, ?_, ?_⟩
  · obtain ⟨hcp, -⟩ := applyMove_testBit white black row column player
      h1 h2 h3 h4 (squareIndex row column)
    rw [hcp]
    simp
  · obtain ⟨-, hco⟩ := applyMove_testBit white black row column player
      h1 h2 h3 h4 (squareIndex row column)
    rw [hco ht64, hto]
    simp
  · intro j hj
    have hj64 := (allFlips_mem _ _ row column h1 h2 h3 h4 j hj).1
    obtain ⟨hcp, hco⟩ :=
      applyMove_testBit white black row column player h1 h2 h3 h4 j
    constructor
    · rw [hcp, decide_eq_true hj]
      simp
    · rw [hco hj64, decide_eq_true hj]
      simp

/-- Witness for C10 at a concrete input: black plays the (illegal) empty
square a1 (row 0, column 0) of the initial position, which has no adjacent
opponent piece; disjointness still holds afterwards. -/
theorem applyMove_preserves_disjointness_witness :
    setupInitialPos.1 &&& setupInitialPos.2 = 0 ∧
      (opponentBoardOf setupInitialPos.1 setupInitialPos.2
        Player.B).testBit (squareIndex 0 0) = false ∧
      checkValidMove setupInitialPos.1 setupInitialPos.2 (0, 0) Player.B
        = false ∧
      ((applyMove setupInitialPos.1 setupInitialPos.2 (0, 0) Player.B).1 &&&
        (applyMove setupInitialPos.1 setupInitialPos.2 (0, 0) Player.B).2
        = 0) :=
  ⟨by decide, by decide, by decide,
    (applyMove_preserves_disjointness setupInitialPos.1 setupInitialPos.2
      0 0 Player.B (by decide) (by omega) (by omega) (by omega) (by omega)
      (by decide)).1⟩

/-! Claim C3: disjointness of all reachable positions. -/

/-- Reachable board pairs: the initial position, closed under applying any
move that the legality check accepts for the moving player (at an in-range
square, as all moves produced by the game's move sources are). -/
inductive Reachable : Nat → Nat → Prop where
  | init : Reachable setupInitialPos.1 setupInitialPos.2
  | step (white black : Nat) (row column : Int) (player : Player) :
      Reachable white black → 0 ≤ row → row < 8 → 0 ≤ column →
      column < 8 →
      checkValidMove white black (row, column) player = true →
      Reachable (applyMove white black (row, column) player).1
        (applyMove white black (row, column) player).2

/-- C3: every reachable pair of masks is disjoint; the initial setup is
disjoint and every legal applyMove preserves disjointness. -/
theorem reachable_disjoint (white black : Nat)
    (h : Reachable white black) : white &&& black = 0 := by
  induction h with
  | init => decide
  | step w b row column player hr h1 h2 h3 h4 hv ih =>
    exact applyMove_disjoint_core w b row column player ih h1 h2 h3 h4
      (checkValidMove_unoccupied w b row column player hv).2

/-- Witness for C3 at a concrete input: the initial position is reachable
and disjoint. -/
theorem reachable_disjoint_witness :
    setupInitialPos.1 &&& setupInitialPos.2 = 0 :=
  reachable_disjoint setupInitialPos.1 setupInitialPos.2 Reachable.init

/-! Counting lemmas for filtered lists. -/

/-- Counting a disjunction of disjoint predicates adds the counts. -/
theorem length_filter_or_disjoint {p q : Nat → Bool} (l : List Nat)
    (h : ∀ x ∈ l, ¬(p x = true ∧ q x = true)) :
    (l.filter fun x => p x || q x).length =
      (l.filter p).length + (l.filter q).length := by
  induction l with
  | nil => rfl
  | cons a t ih =>
    have ht := ih (fun x hx => h x (List.mem_cons_of_mem a hx))
    rcases Bool.eq_false_or_eq_true (p a) with hp | hp <;>
      rcases Bool.eq_false_or_eq_true (q a) with hq | hq <;>
      first
        | exact absurd (And.intro hp hq) (h a (List.mem_cons_self a t))
        | (simp [List.filter_cons, hp, hq, ht]; omega)
        | simp [List.filter_cons, hp, hq, ht]

/-- Splitting a count along a second predicate. -/
theorem length_filter_split {p q : Nat → Bool} (l : List Nat) :
    (l.filter p).length = (l.filter fun x => p x && q x).length +
      (l.filter fun x => p x && !q x).length := by
  induction l with
  | nil => rfl
  | cons a t ih =>
    rcases Bool.eq_false_or_eq_true (p a) with hp | hp <;>
      rcases Bool.eq_false_or_eq_true (q a) with hq | hq <;>
      first
        | (simp [List.filter_cons, hp, hq, ih]; omega)
        | simp [List.filter_cons, hp, hq, ih]

/-- A single value below n is counted once in the range filter. -/
theorem length_filter_eq_target (t : Nat) :
    ∀ n : Nat, t < n →
      ((List.range n).filter fun j => decide (t = j)).length = 1 := by
  intro n
  induction n with
  | zero => intro h; omega
  | succ n ih =>
    intro h
    rw [List.range_succ, List.filter_append, List.length_append]
    by_cases htn : t = n
    · have hnil : (List.range n).filter (fun j => decide (t = j)) = [] := by
        apply List.filter_eq_nil_iff.mpr
        intro a ha
        simp only [decide_eq_true_eq]
        intro he
        rw [List.mem_range] at ha
        omega
      rw [hnil]
      simp [List.filter_cons, htn]
    · have h2 : t < n := by omega
      rw [ih h2]
      simp [List.filter_cons, htn]

/-- Mover and opponent masks of disjoint white and black masks are
disjoint, for either player. -/
theorem disjoint_playerBoards (white black : Nat)
    (hdisj : white &&& black = 0) (player : Player) :
    ∀ i, ¬((playerBoardOf white black player).testBit i ∧
      (opponentBoardOf white black player).testBit i) := by
  cases player
  · exact (land_eq_zero_iff_testBit _ _).mp hdisj
  · intro i hi
    exact (land_eq_zero_iff_testBit _ _).mp hdisj i ⟨hi.2, hi.1⟩

/-- Abstract counting step for the move post-condition: if the new mover
mask is the old one plus the target square plus the flip set, and the new
opponent mask is the old one minus the flip set, then the mover count goes
up by one plus the number of squares changing from opponent to mover, and
the opponent count goes down by that number. -/
theorem popcount_move_arith (pB0 oB0 newPB newOB : Nat) (t : Nat)
    (F : List Nat) (ht64 : t < 64)
    (hPt : pB0.testBit t = false) (hOt : oB0.testBit t = false)
    (hdisjbit : ∀ i, ¬(pB0.testBit i ∧ oB0.testBit i))
    (hF : ∀ x ∈ F, x < 64 ∧ oB0.testBit x = true ∧ x ≠ t)
    (hup : ∀ j, newPB.testBit j =
      (pB0.testBit j || decide (t = j) || decide (j ∈ F)))
    (hlow : ∀ j, j < 64 → newOB.testBit j =
      (oB0.testBit j && !decide (j ∈ F))) :
    popcount64 newPB = popcount64 pB0 + 1 +
      ((List.range 64).filter fun j =>
        oB0.testBit j && newPB.testBit j).length ∧
    popcount64 oB0 = popcount64 newOB +
      ((List.range 64).filter fun j =>
        oB0.testBit j && newPB.testBit j).length := by
  have hchanged : ((List.range 64).filter fun j =>
      oB0.testBit j && newPB.testBit j).length =
      ((List.range 64).filter fun j => decide (j ∈ F)).length := by
    apply congrArg List.length
    apply List.filter_congr
    intro j hj
    rw [hup j]
    rcases Bool.eq_false_or_eq_true (oB0.testBit j) with ho | ho
    · rw [ho]
      rcases Bool.eq_false_or_eq_true (decide (j ∈ F)) with hd | hd
      · rw [hd]
        simp
      · have hp : pB0.testBit j = false := by
          rcases Bool.eq_false_or_eq_true (pB0.testBit j) with h | h
          · exact absurd (And.intro h ho) (hdisjbit j)
          · exact h
        have htj : decide (t = j) = false := by
          rcases Bool.eq_false_or_eq_true (decide (t = j)) with h | h
          · exfalso
            have he := of_decide_eq_true h
            rw [← he] at ho
            rw [ho] at hOt
            exact absurd hOt (by simp)
          · exact h
        rw [hd, hp, htj]
        rfl
    · rw [ho]
      have hd : decide (j ∈ F) = false := by
        rcases Bool.eq_false_or_eq_true (decide (j ∈ F)) with h | h
        · exact absurd (hF j (of_decide_eq_true h)).2.1 (by simp [ho])
        · exact h
      rw [hd]
      rfl
  constructor
  · have e1 : (List.range 64).filter (fun i => newPB.testBit i) =
        (List.range 64).filter
          (fun i => (pB0.testBit i || decide (t = i)) || decide (i ∈ F)) :=
      List.filter_congr (fun j _ => hup j)
    unfold popcount64
    rw [e1, length_filter_or_disjoint _ (by
      rintro x hx ⟨hx1, hx2⟩
      obtain ⟨-, hxO, hxt⟩ := hF x (of_decide_eq_true hx2)
      rw [Bool.or_eq_true] at hx1
      rcases hx1 with h | h
      · exact hdisjbit x ⟨h, hxO⟩
      · exact hxt (of_decide_eq_true h).symm)]
    rw [length_filter_or_disjoint _ (by
      rintro x hx ⟨hx1, hx2⟩
      have := of_decide_eq_true hx2
      rw [← this] at hx1
      rw [hx1] at hPt
      exact absurd hPt (by simp))]
    rw [length_filter_eq_target t 64 ht64, hchanged]
  · rw [hchanged]
    unfold popcount64
    rw [length_filter_split (q := fun i => decide (i ∈ F)) (List.range 64)]
    have e2 : (List.range 64).filter
        (fun i => oB0.testBit i && decide (i ∈ F)) =
        (List.range 64).filter (fun i => decide (i ∈ F)) := by
      apply List.filter_congr
      intro j hj
      rcases Bool.eq_false_or_eq_true (decide (j ∈ F)) with hd | hd
      · rw [hd, (hF j (of_decide_eq_true hd)).2.1]; rfl
      · rw [hd]; simp
    have e3 : (List.range 64).filter
        (fun i => oB0.testBit i && !decide (i ∈ F)) =
        (List.range 64).filter (fun i => newOB.testBit i) := by
      apply List.filter_congr
      intro j hj
      rw [hlow j (List.mem_range.mp hj)]
    rw [e2, e3]
    omega

/-! Claim C4: exact piece-count change of a legal move. -/

/-- C4: for disjoint masks and a legal in-range move, applyMove increases
the mover's population count by exactly 1 plus the number of flipped discs
and decreases the opponent's by exactly that number, where a flipped disc
is a square whose occupancy changes from opponent (before the move) to
mover (after the move); in particular the mover's count strictly
increases. -/
theorem applyMove_popcount (white black : Nat) (row column : Int)
    (player : Player) (hdisj : white &&& black = 0) (h1 : 0 ≤ row)
    (h2 : row < 8) (h3 : 0 ≤ column) (h4 : column < 8)
    (hv : checkValidMove white black (row, column) player = true) :
    popcount64 (playerBoardOf (applyMove white black (row, column) player).1
        (applyMove white black (row, column) player).2 player) =
      popcount64 (playerBoardOf white black player) + 1 +
        ((List.range 64).filter fun j =>
          (opponentBoardOf white black player).testBit j &&
          (playerBoardOf (applyMove white black (row, column) player).1
            (applyMove white black (row, column) player).2
            player).testBit j).length ∧
    popcount64 (opponentBoardOf white black player) =
      popcount64 (opponentBoardOf (applyMove white black (row, column)
          player).1 (applyMove white black (row, column) player).2 player) +
        ((List.range 64).filter fun j =>
          (opponentBoardOf white black player).testBit j &&
          (playerBoardOf (applyMove white black (row, column) player).1
            (applyMove white black (row, column) player).2
            player).testBit j).length ∧
    popcount64 (playerBoardOf white black player) <
      popcount64 (playerBoardOf (applyMove white black (row, column)
        player).1 (applyMove white black (row, column) player).2 player) := by
  have ht64 : squareIndex row column < 64 :=
    squareIndex_lt row column ⟨h1, h2, h3, h4⟩
  obtain ⟨hPt, hOt⟩ :=
    checkValidMove_unoccupied white black row column player hv
  obtain ⟨hA, hB⟩ := popcount_move_arith
    (playerBoardOf white black player) (opponentBoardOf white black player)
    (playerBoardOf (applyMove white black (row, column) player).1
      (applyMove white black (row, column) player).2 player)
    (opponentBoardOf (applyMove white black (row, column) player).1
      (applyMove white black (row, column) player).2 player)
    (squareIndex row column)
    (allFlips (playerBoardOf white black player)
      (opponentBoardOf white black player) row column)
    ht64 hPt hOt (disjoint_playerBoards white black hdisj player)
    (fun x hx => allFlips_mem _ _ row column h1 h2 h3 h4 x hx)
    (fun j => (applyMove_testBit white black row column player
      h1 h2 h3 h4 j).1)
    (fun j hj => (applyMove_testBit white black row column player
      h1 h2 h3 h4 j).2 hj)
  exact ⟨hA, hB, by omega⟩

/-- Witness for C4 at a concrete input: black plays d3 (row 2, column 3)
on the initial position; black goes from 2 to 4 discs (1 placed, 1
flipped), white from 2 to 1. -/
theorem applyMove_popcount_witness :
    setupInitialPos.1 &&& setupInitialPos.2 = 0 ∧
      checkValidMove setupInitialPos.1 setupInitialPos.2 (2, 3) Player.B
        = true ∧
      popcount64 (playerBoardOf
        (applyMove setupInitialPos.1 setupInitialPos.2 (2, 3) Player.B).1
        (applyMove setupInitialPos.1 setupInitialPos.2 (2, 3) Player.B).2
        Player.B) =
        popcount64 (playerBoardOf setupInitialPos.1 setupInitialPos.2
          Player.B) + 1 +
        ((List.range 64).filter fun j =>
          (opponentBoardOf setupInitialPos.1 setupInitialPos.2
            Player.B).testBit j &&
          (playerBoardOf
            (applyMove setupInitialPos.1 setupInitialPos.2 (2, 3)
              Player.B).1
            (applyMove setupInitialPos.1 setupInitialPos.2 (2, 3)
              Player.B).2 Player.B).testBit j).length :=
  ⟨by decide, by decide,
    (applyMove_popcount setupInitialPos.1 setupInitialPos.2 2 3 Player.B
      (by decide) (by omega) (by omega) (by omega) (by omega)
      (by decide)).1⟩

/-! Claim C5: characterisation of the legality check. -/

/-- C5: for disjoint masks and an in-range target square, checkValidMove
rejects an occupied square; on an unoccupied square it succeeds exactly
when some direction carries a non-empty run of opponent squares adjacent
to the target terminated by an in-range mover square; and a square with no
adjacent opponent piece in any direction is always rejected. -/
theorem checkValidMove_characterization (white black : Nat)
    (row column : Int) (player : Player) (hdisj : white &&& black = 0)
    (h1 : 0 ≤ row) (h2 : row < 8) (h3 : 0 ≤ column) (h4 : column < 8) :
    (((playerBoardOf white black player).testBit (squareIndex row column) ∨
        (opponentBoardOf white black player).testBit
          (squareIndex row column)) →
      checkValidMove white black (row, column) player = false) ∧
    (checkValidMove white black (row, column) player = true ↔
      (¬ (playerBoardOf white black player).testBit
          (squareIndex row column) ∧
        ¬ (opponentBoardOf white black player).testBit
          (squareIndex row column) ∧
        ∃ d ∈ DIRECTIONS,
          legalDirectionSpec (playerBoardOf white black player)
            (opponentBoardOf white black player) row column d)) ∧
    ((∀ d ∈ DIRECTIONS,
        ¬(inBoard (row + d.1) (column + d.2) ∧
          (opponentBoardOf white black player).testBit
            (squareIndex (row + d.1) (column + d.2)))) →
      checkValidMove white black (row, column) player = false) := by
  have main : ∀ pB oB : Nat, pB &&& oB = 0 →
      ((pB.testBit (squareIndex row column) ∨
          oB.testBit (squareIndex row column)) →
        (if pB &&& (1 <<< squareIndex row column) ≠ 0 ∨
            oB &&& (1 <<< squareIndex row column) ≠ 0 then false
          else DIRECTIONS.any fun d =>
            validWalk pB oB d.1 d.2 8 (row + d.1) (column + d.2) false)
          = false) ∧
      ((if pB &&& (1 <<< squareIndex row column) ≠ 0 ∨
          oB &&& (1 <<< squareIndex row column) ≠ 0 then false
        else DIRECTIONS.any fun d =>
          validWalk pB oB d.1 d.2 8 (row + d.1) (column + d.2) false)
        = true ↔
        (¬ pB.testBit (squareIndex row column) ∧
          ¬ oB.testBit (squareIndex row column) ∧
          ∃ d ∈ DIRECTIONS, legalDirectionSpec pB oB row column d)) ∧
      ((∀ d ∈ DIRECTIONS,
          ¬(inBoard (row + d.1) (column + d.2) ∧
            oB.testBit (squareIndex (row + d.1) (column + d.2)))) →
        (if pB &&& (1 <<< squareIndex row column) ≠ 0 ∨
            oB &&& (1 <<< squareIndex row column) ≠ 0 then false
          else DIRECTIONS.any fun d =>
            validWalk pB oB d.1 d.2 8 (row + d.1) (column + d.2) false)
          = false) := by
    intro pB oB hpo
    by_cases hocc : pB.testBit (squareIndex row column) ∨
        oB.testBit (squareIndex row column)
    · rw [if_pos (by
        rcases hocc with h | h
        · exact Or.inl ((land_shiftLeft_ne_zero pB _).mpr h)
        · exact Or.inr ((land_shiftLeft_ne_zero oB _).mpr h))]
      refine ⟨fun _ => rfl, ?_, fun _ => rfl⟩
      constructor
      · intro h; simp at h
      · rintro ⟨hnp, hno, -⟩
        rcases hocc with h | h
        · exact absurd h hnp
        · exact absurd h hno
    · push_neg at hocc
      rw [if_neg (by
        rintro (h | h)
        · exact hocc.1 ((land_shiftLeft_ne_zero pB _).mp h)
        · exact hocc.2 ((land_shiftLeft_ne_zero oB _).mp h))]
      refine ⟨?_, ?_, ?_⟩
      · intro h
        rcases h with h | h
        · exact absurd h hocc.1
        · exact absurd h hocc.2
      · rw [List.any_eq_true]
        constructor
        · rintro ⟨d, hd, hwalk⟩
          exact ⟨hocc.1, hocc.2, d, hd,
            (validWalk_legalDirectionSpec pB oB row column d hd hpo
              h1 h2 h3 h4).mp hwalk⟩
        · rintro ⟨-, -, d, hd, hspec⟩
          exact ⟨d, hd,
            (validWalk_legalDirectionSpec pB oB row column d hd hpo
              h1 h2 h3 h4).mpr hspec⟩
      · intro hadj
        rw [← Bool.not_eq_true, List.any_eq_true]
        rintro ⟨d, hd, hwalk⟩
        rw [validWalk_iff] at hwalk
        obtain ⟨m, hm, hOpp, hrun, hterm, hp, hno⟩ := hwalk
        have hm1 : 1 ≤ m := hOpp.resolve_left (by simp)
        have h0 := hrun 0 (by omega)
        simp only [Nat.cast_zero, zero_mul, add_zero] at h0
        exact hadj d hd h0
  cases player
  · have := main white black hdisj
    simpa only [checkValidMove, playerBoardOf, opponentBoardOf,
      if_pos rfl] using this
  · have hdisj2 : black &&& white = 0 := by rw [Nat.land_comm]; exact hdisj
    have := main black white hdisj2
    simpa only [checkValidMove, playerBoardOf, opponentBoardOf] using this

/-- Witness for C5 at a concrete input: the initial position, black to
move at d3 (row 2, column 3), which is legal. -/
theorem checkValidMove_characterization_witness :
    setupInitialPos.1 &&& setupInitialPos.2 = 0 ∧
      checkValidMove setupInitialPos.1 setupInitialPos.2 (2, 3) Player.B
        = true ∧
      (¬ (playerBoardOf setupInitialPos.1 setupInitialPos.2
          Player.B).testBit (squareIndex 2 3) ∧
        ¬ (opponentBoardOf setupInitialPos.1 setupInitialPos.2
          Player.B).testBit (squareIndex 2 3) ∧
        ∃ d ∈ DIRECTIONS,
          legalDirectionSpec
            (playerBoardOf setupInitialPos.1 setupInitialPos.2 Player.B)
            (opponentBoardOf setupInitialPos.1 setupInitialPos.2 Player.B)
            2 3 d) := by
  refine ⟨by decide, by decide, ?_⟩
  exact (checkValidMove_characterization setupInitialPos.1 setupInitialPos.2
    2 3 Player.B (by decide) (by omega) (by omega) (by omega)
    (by omega)).2.1.mp (by decide)

/-! Claim C7: decomposition of the static evaluator. -/

/-- Material term of the claim: the player's disc count minus the
opponent's disc count. -/
def materialTerm (white black : Nat) (player : Player) : Int :=
  (popcount64 (playerBoardOf white black player) : Int) -
    (popcount64 (opponentBoardOf white black player) : Int)

/-- Corner term of the claim: +10 for each of the 4 corners the player
holds, -10 for each the opponent holds, as a sum of independent
contributions. -/
def cornerTerm (white black : Nat) (player : Player) : Int :=
  (corners.map fun corner =>
    (if (playerBoardOf white black player).testBit
        (squareIndex corner.1 corner.2) then (10 : Int) else 0) -
    (if (opponentBoardOf white black player).testBit
        (squareIndex corner.1 corner.2) then (10 : Int) else 0)).sum

/-- Edge term of the claim: for each offset 1..6, one contribution: +5 if
the player holds any of the four symmetric non-corner edge cells at that
offset, else -5 if the opponent holds any of them, else 0. -/
def edgeTerm (white black : Nat) (player : Player) : Int :=
  ((List.range' 1 6).map fun i =>
    if (playerBoardOf white black player).testBit i ∨
        (playerBoardOf white black player).testBit (i * 8) ∨
        (playerBoardOf white black player).testBit (7 * 8 + i) ∨
        (playerBoardOf white black player).testBit (i * 8 + 7) then
      (5 : Int)
    else if (opponentBoardOf white black player).testBit i ∨
        (opponentBoardOf white black player).testBit (i * 8) ∨
        (opponentBoardOf white black player).testBit (7 * 8 + i) ∨
        (opponentBoardOf white black player).testBit (i * 8 + 7) then
      (-5 : Int)
    else 0).sum

/-- Mobility term of the claim: the legal-move count difference, divided
by 5 with truncation toward zero. -/
def mobilityTerm (white black : Nat) (player : Player) : Int :=
  Int.tdiv (((getPossibleMoves white black player).length : Int) -
    ((getPossibleMoves white black (opponent player)).length : Int)) 5

/-- Folding an additively-shifting step is summing the contributions. -/
theorem foldl_eq_sum {α : Type} (step : Int → α → Int) (contrib : α → Int)
    (h : ∀ acc a, step acc a = acc + contrib a) (l : List α) :
    ∀ init : Int, l.foldl step init = init + (l.map contrib).sum := by
  induction l with
  | nil => intro init; simp
  | cons a t ih =>
    intro init
    simp only [List.foldl_cons, List.map_cons, List.sum_cons, ih, h]
    ring

/-- Player-symmetric form of the evaluator: the branches on the player
identity inside evaluateBoard select exactly the mover's and the
opponent's masks. -/
theorem evaluateBoard_eq (white black : Nat) (player : Player) :
    evaluateBoard white black player =
      (popcount64 (playerBoardOf white black player) : Int) -
        (popcount64 (opponentBoardOf white black player) : Int) +
      corners.foldl (fun acc corner =>
        if (playerBoardOf white black player).testBit
            (squareIndex corner.1 corner.2) then acc + CORNER_WEIGHT
        else if (opponentBoardOf white black player).testBit
            (squareIndex corner.1 corner.2) then acc - CORNER_WEIGHT
        else acc) 0 +
      (List.range' 1 6).foldl (fun acc i =>
        if (playerBoardOf white black player).testBit i ∨
            (playerBoardOf white black player).testBit (i * 8) ∨
            (playerBoardOf white black player).testBit (7 * 8 + i) ∨
            (playerBoardOf white black player).testBit (i * 8 + 7) then
          acc + SIDE_WEIGHT
        else if (opponentBoardOf white black player).testBit i ∨
            (opponentBoardOf white black player).testBit (i * 8) ∨
            (opponentBoardOf white black player).testBit (7 * 8 + i) ∨
            (opponentBoardOf white black player).testBit (i * 8 + 7) then
          acc - SIDE_WEIGHT
        else acc) 0 +
      Int.tdiv (((getPossibleMoves white black player).length : Int) -
        ((getPossibleMoves white black (opponent player)).length : Int))
        5 := by
  cases player <;>
    simp [evaluateBoard, playerBoardOf, opponentBoardOf, getScore]

/-- Accumulating if-chain as accumulator plus contribution. -/
theorem step_shape (acc w : Int) (p q : Prop) [Decidable p] [Decidable q] :
    (if p then acc + w else if q then acc - w else acc) =
      acc + (if p then w else if q then -w else 0) := by
  split_ifs <;> ring

/-- Per-corner contribution: with masks disjoint on that square, the
else-if form of the corner weight is the difference of the two independent
contributions of the claim. -/
theorem corner_contrib_eq (pB oB : Nat) (i : Nat)
    (h : ¬(pB.testBit i ∧ oB.testBit i)) :
    (if pB.testBit i then CORNER_WEIGHT
      else if oB.testBit i then -CORNER_WEIGHT else 0) =
      (if pB.testBit i then (10 : Int) else 0) -
        (if oB.testBit i then (10 : Int) else 0) := by
  by_cases hp : pB.testBit i <;> by_cases ho : oB.testBit i
  · exact absurd ⟨hp, ho⟩ h
  · simp [hp, ho, CORNER_WEIGHT]
  · simp [hp, ho, CORNER_WEIGHT]
  · simp [hp, ho, CORNER_WEIGHT]

/-- C7: for disjoint masks the static evaluator is the sum of the material
term, the corner term (a sum of independent corner contributions), the
edge term (one contribution per offset) and the truncated mobility term. -/
theorem evaluateBoard_decomposition (white black : Nat) (player : Player)
    (hdisj : white &&& black = 0) :
    evaluateBoard white black player =
      materialTerm white black player + cornerTerm white black player +
        edgeTerm white black player + mobilityTerm white black player := by
  have hpo : ∀ i, ¬((playerBoardOf white black player).testBit i ∧
      (opponentBoardOf white black player).testBit i) := by
    cases player
    · exact (land_eq_zero_iff_testBit _ _).mp hdisj
    · intro i hi
      exact (land_eq_zero_iff_testBit _ _).mp hdisj i ⟨hi.2, hi.1⟩
  rw [evaluateBoard_eq]
  unfold materialTerm cornerTerm edgeTerm mobilityTerm
  rw [foldl_eq_sum _
    (fun corner =>
      if (playerBoardOf white black player).testBit
          (squareIndex corner.1 corner.2) then CORNER_WEIGHT
      else if (opponentBoardOf white black player).testBit
          (squareIndex corner.1 corner.2) then -CORNER_WEIGHT
      else 0)
    (by intro acc a; exact step_shape acc CORNER_WEIGHT _ _) corners 0]
  rw [foldl_eq_sum _
    (fun i =>
      if (playerBoardOf white black player).testBit i ∨
          (playerBoardOf white black player).testBit (i * 8) ∨
          (playerBoardOf white black player).testBit (7 * 8 + i) ∨
          (playerBoardOf white black player).testBit (i * 8 + 7) then
        SIDE_WEIGHT
      else if (opponentBoardOf white black player).testBit i ∨
          (opponentBoardOf white black player).testBit (i * 8) ∨
          (opponentBoardOf white black player).testBit (7 * 8 + i) ∨
          (opponentBoardOf white black player).testBit (i * 8 + 7) then
        -SIDE_WEIGHT
      else 0)
    (by intro acc a; exact step_shape acc SIDE_WEIGHT _ _) (List.range' 1 6) 0]
  have hcorner :
      (corners.map fun corner =>
        if (playerBoardOf white black player).testBit
            (squareIndex corner.1 corner.2) then CORNER_WEIGHT
        else if (opponentBoardOf white black player).testBit
            (squareIndex corner.1 corner.2) then -CORNER_WEIGHT
        else 0).sum =
      (corners.map fun corner =>
        (if (playerBoardOf white black player).testBit
            (squareIndex corner.1 corner.2) then (10 : Int) else 0) -
        (if (opponentBoardOf white black player).testBit
            (squareIndex corner.1 corner.2) then (10 : Int) else 0)).sum := by
    apply congrArg List.sum
    apply List.map_congr_left
    intro a ha
    exact corner_contrib_eq _ _ _ (hpo (squareIndex a.1 a.2))
  rw [hcorner, SIDE_WEIGHT]
  ring

/-- Witness for C7 at a concrete input: the initial position for black. -/
theorem evaluateBoard_decomposition_witness :
    setupInitialPos.1 &&& setupInitialPos.2 = 0 ∧
      evaluateBoard setupInitialPos.1 setupInitialPos.2 Player.B =
        materialTerm setupInitialPos.1 setupInitialPos.2 Player.B +
          cornerTerm setupInitialPos.1 setupInitialPos.2 Player.B +
          edgeTerm setupInitialPos.1 setupInitialPos.2 Player.B +
          mobilityTerm setupInitialPos.1 setupInitialPos.2 Player.B :=
  ⟨by decide, evaluateBoard_decomposition setupInitialPos.1
    setupInitialPos.2 Player.B (by decide)⟩

/-! Claim C6: terminal behaviour of the search. -/

/-- C6: for every board, player, alpha, beta and either maximizing flag,
if the depth is 0 or the side to move has no legal move, minimax returns
the static evaluation of the current position paired with the sentinel
move (-1, -1), without running a candidate loop. -/
theorem minimax_terminal (white black : Nat) (player : Player) (depth : Nat)
    (isMaximizing : Bool) (alpha beta : Int)
    (h : depth = 0 ∨ hasValidMoves white black player = false) :
    minimax white black player depth isMaximizing alpha beta =
      (evaluateBoard white black player, (-1, -1)) := by
  rw [minimax]
  exact dif_pos h

/-- Witness for C6 at a concrete input: the empty board at depth 0. -/
theorem minimax_terminal_witness :
    ((0 : Nat) = 0 ∨ hasValidMoves 0 0 Player.W = false) ∧
      minimax 0 0 Player.W 0 true 0 0 =
        (evaluateBoard 0 0 Player.W, (-1, -1)) :=
  ⟨Or.inl rfl, minimax_terminal 0 0 Player.W 0 true 0 0 (Or.inl rfl)⟩

/-! Claim C9: error behaviour of parsing and of the bit mutation
primitive. -/

/-- C9: stringToBoardPosition fails with invalidFormat exactly on inputs
whose length is not 2; on length-2 inputs it fails with outOfRange exactly
when the column character is outside 'a'..'h' or the row character is
outside '1'..'8', and succeeds otherwise; changeBitOnBoard fails with
outOfRange exactly when the row or column is outside [0,7], and on failure
the board it was given is returned unchanged. -/
theorem parse_and_changeBit_errors :
    (∀ s : List Char,
      stringToBoardPosition s = Except.error BoardError.invalidFormat ↔
        s.length ≠ 2) ∧
    (∀ c r : Char,
      stringToBoardPosition [c, r] = Except.error BoardError.outOfRange ↔
        (c < 'a' ∨ 'h' < c ∨ r < '1' ∨ '8' < r)) ∧
    (∀ c r : Char, ¬(c < 'a' ∨ 'h' < c ∨ r < '1' ∨ '8' < r) →
      ∃ pos, stringToBoardPosition [c, r] = Except.ok pos) ∧
    (∀ (board : Nat) (row column : Int) (value : Bool),
      (changeBitOnBoard board row column value).2 =
          some BoardError.outOfRange ↔
        ¬(0 ≤ row ∧ row < 8 ∧ 0 ≤ column ∧ column < 8)) ∧
    (∀ (board : Nat) (row column : Int) (value : Bool),
      (changeBitOnBoard board row column value).2 ≠ none →
        (changeBitOnBoard board row column value).1 = board) := by
  refine ⟨?_, ?_, ?_, ?_, ?_⟩
  · intro s
    match s with
    | [] => simp [stringToBoardPosition]
    | [c] => simp [stringToBoardPosition]
    | [c, r] =>
      simp only [stringToBoardPosition, List.length_cons, List.length_nil]
      constructor
      · intro h
        split at h <;> simp_all
      · intro h; omega
    | c :: r :: x :: t => simp [stringToBoardPosition]
  · intro c r
    simp only [stringToBoardPosition]
    constructor
    · intro h
      by_contra hb
      rw [if_neg hb] at h
      simp at h
    · intro h
      rw [if_pos h]
  · intro c r h
    simp only [stringToBoardPosition]
    rw [if_neg h]
    exact ⟨_, rfl⟩
  · intro board row column value
    simp only [changeBitOnBoard]
    constructor
    · intro h
      split at h
      · omega
      · split at h <;> simp_all
    · intro h
      rw [if_pos (by omega)]
  · intro board row column value h
    by_cases hc : row < 0 ∨ 8 ≤ row ∨ column < 0 ∨ 8 ≤ column
    · simp [changeBitOnBoard, hc]
    · exfalso
      simp only [changeBitOnBoard, if_neg hc] at h
      split at h <;> simp at h

/-- Witness for C9 at concrete inputs: the empty string is rejected as
invalidFormat, the string i1 as outOfRange, a9 as outOfRange, d3 parses,
and a bit mutation at row 9 fails leaving the board unchanged. -/
theorem parse_and_changeBit_errors_witness :
    stringToBoardPosition [] = Except.error BoardError.invalidFormat ∧
      stringToBoardPosition ['i', '1'] =
        Except.error BoardError.outOfRange ∧
      (changeBitOnBoard 12345 9 0 true).2 = some BoardError.outOfRange ∧
      (changeBitOnBoard 12345 9 0 true).1 = 12345 := by
  refine ⟨(parse_and_changeBit_errors.1 []).mpr (by decide),
    (parse_and_changeBit_errors.2.1 'i' '1').mpr (by decide),
    (parse_and_changeBit_errors.2.2.2.1 12345 9 0 true).mpr (by omega),
    parse_and_changeBit_errors.2.2.2.2 12345 9 0 true ?_⟩
  decide

/-! Claim C8: round trip between position strings and coordinates. -/

/-- C8: formatting after parsing restores every valid two-character
coordinate string, and parsing after formatting restores every in-range
(row, column) pair. -/
theorem position_roundtrip :
    (∀ c r : Char, 'a' ≤ c → c ≤ 'h' → '1' ≤ r → r ≤ '8' →
      ∃ pos, stringToBoardPosition [c, r] = Except.ok pos ∧
        boardPositionToString pos = [c, r]) ∧
    (∀ row column : Int, 0 ≤ row → row < 8 → 0 ≤ column → column < 8 →
      stringToBoardPosition (boardPositionToString (row, column)) =
        Except.ok (row, column)) := by
  constructor
  · intro c r hc1 hc2 hr1 hr2
    have hc1n : 97 ≤ c.toNat := (char_le_toNat _ _).mp hc1
    have hc2n : c.toNat ≤ 104 := (char_le_toNat _ _).mp hc2
    have hr1n : 49 ≤ r.toNat := (char_le_toNat _ _).mp hr1
    have hr2n : r.toNat ≤ 56 := (char_le_toNat _ _).mp hr2
    have e1 : ('a').toNat = 97 := rfl
    have e2 : ('h').toNat = 104 := rfl
    have e3 : ('1').toNat = 49 := rfl
    have e4 : ('8').toNat = 56 := rfl
    refine ⟨(((r.toNat : Int) - ('1'.toNat : Int)),
      ((c.toNat : Int) - ('a'.toNat : Int))), ?_, ?_⟩
    · simp only [stringToBoardPosition]
      rw [if_neg]
      intro h
      rcases h with h | h | h | h <;> rw [char_lt_toNat] at h <;>
        simp only [e1, e2, e3, e4] at h <;> omega
    · simp only [boardPositionToString]
      have h1 : ((r.toNat : Int) - ('1'.toNat : Int) + ('1'.toNat : Int)).toNat
          = r.toNat := by simp
      have h2 : ((c.toNat : Int) - ('a'.toNat : Int) + ('a'.toNat : Int)).toNat
          = c.toNat := by simp
      rw [h1, h2, Char.ofNat_toNat, Char.ofNat_toNat]
  · intro row column h1 h2 h3 h4
    interval_cases row <;> interval_cases column <;> rfl

/-- Witness for C8 at concrete inputs: the string d3 and the pair (2, 3). -/
theorem position_roundtrip_witness :
    ('a' ≤ 'd' ∧ 'd' ≤ 'h' ∧ '1' ≤ '3' ∧ '3' ≤ '8' ∧
      ∃ pos, stringToBoardPosition ['d', '3'] = Except.ok pos ∧
        boardPositionToString pos = ['d', '3']) ∧
      stringToBoardPosition (boardPositionToString (2, 3)) =
        Except.ok (2, 3) :=
  ⟨⟨by decide, by decide, by decide, by decide,
    position_roundtrip.1 'd' '3' (by decide) (by decide) (by decide)
      (by decide)⟩,
    position_roundtrip.2 2 3 (by omega) (by omega) (by omega) (by omega)⟩

/-! Claim C1: alpha-beta pruning never changes the selected move.
The development follows the classical fail-soft argument: the pruned
search agrees with the unpruned search inside the window, understates it
at most when failing low and overstates it at most when failing high, and
with the full window at the root every child value is exact, so the
running maximum, the tie-break and hence the selected move coincide. -/

/-- Strict-improvement update as a max. -/
theorem if_gt_eq_max (a b : Int) : (if a > b then a else b) = max b a := by
  rcases le_or_lt a b with h | h
  · rw [if_neg (not_lt.mpr h), max_eq_left h]
  · rw [if_pos h, max_eq_right (le_of_lt h)]

/-- Strict-improvement update as a min. -/
theorem if_lt_eq_min (a b : Int) : (if a < b then a else b) = min b a := by
  rcases le_or_lt b a with h | h
  · rw [if_neg (not_lt.mpr h), min_eq_left h]
  · rw [if_pos h, min_eq_right (le_of_lt h)]

/-- Value of the unpruned maximizing loop: a left fold of max over the
child values, independent of the tracked move. -/
theorem fullMaximizeLoop_val (child : Int × Int → Int) :
    ∀ (ms : List (Int × Int)) (maxEval : Int) (bm : Int × Int),
      (fullMaximizeLoop child ms maxEval bm).1 =
        ms.foldl (fun acc m => max acc (child m)) maxEval := by
  intro ms
  induction ms with
  | nil => intro maxEval bm; rfl
  | cons m t ih =>
    intro maxEval bm
    show (fullMaximizeLoop child t
      (if child m > maxEval then child m else maxEval)
      (if child m > maxEval then m else bm)).1 = _
    rw [ih, if_gt_eq_max, List.foldl_cons]

/-- Value of the unpruned minimizing loop: a left fold of min. -/
theorem fullMinimizeLoop_val (child : Int × Int → Int) :
    ∀ (ms : List (Int × Int)) (minEval : Int) (bm : Int × Int),
      (fullMinimizeLoop child ms minEval bm).1 =
        ms.foldl (fun acc m => min acc (child m)) minEval := by
  intro ms
  induction ms with
  | nil => intro minEval bm; rfl
  | cons m t ih =>
    intro minEval bm
    show (fullMinimizeLoop child t
      (if child m < minEval then child m else minEval)
      (if child m < minEval then m else bm)).1 = _
    rw [ih, if_lt_eq_min, List.foldl_cons]

/-- A fold of max is at least its initial value. -/
theorem foldl_max_ge_init {α : Type} (f : α → Int) :
    ∀ (l : List α) (x : Int),
      x ≤ l.foldl (fun acc m => max acc (f m)) x := by
  intro l
  induction l with
  | nil => intro x; exact le_refl x
  | cons a t ih =>
    intro x
    exact le_trans (le_max_left x (f a)) (ih (max x (f a)))

/-- A fold of min is at most its initial value. -/
theorem foldl_min_le_init {α : Type} (f : α → Int) :
    ∀ (l : List α) (x : Int),
      l.foldl (fun acc m => min acc (f m)) x ≤ x := by
  intro l
  induction l with
  | nil => intro x; exact le_refl x
  | cons a t ih =>
    intro x
    exact le_trans (ih (min x (f a))) (min_le_left x (f a))

/-- A max folded from a maxed initial value commutes out of the fold. -/
theorem foldl_max_max {α : Type} (f : α → Int) :
    ∀ (l : List α) (x c : Int),
      l.foldl (fun acc m => max acc (f m)) (max x c) =
        max (l.foldl (fun acc m => max acc (f m)) x) c := by
  intro l
  induction l with
  | nil => intro x c; rfl
  | cons a t ih =>
    intro x c
    show t.foldl _ (max (max x c) (f a)) = _
    rw [show max (max x c) (f a) = max (max x (f a)) c from sup_right_comm x c (f a), ih (max x (f a)) c]
    rfl

/-- A min folded from a minned initial value commutes out of the fold. -/
theorem foldl_min_min {α : Type} (f : α → Int) :
    ∀ (l : List α) (x c : Int),
      l.foldl (fun acc m => min acc (f m)) (min x c) =
        min (l.foldl (fun acc m => min acc (f m)) x) c := by
  intro l
  induction l with
  | nil => intro x c; rfl
  | cons a t ih =>
    intro x c
    show t.foldl _ (min (min x c) (f a)) = _
    rw [show min (min x c) (f a) = min (min x (f a)) c from inf_right_comm x c (f a), ih (min x (f a)) c]
    rfl

/-- The population count of 64 bits is at most 64. -/
theorem popcount64_le (n : Nat) : popcount64 n ≤ 64 := by
  unfold popcount64
  calc ((List.range 64).filter fun i => n.testBit i).length
      ≤ (List.range 64).length := List.length_filter_le _ _
    _ = 64 := List.length_range 64

/-- At most 64 candidate moves exist. -/
theorem getPossibleMoves_length_le (white black : Nat) (player : Player) :
    (getPossibleMoves white black player).length ≤ 64 := by
  unfold getPossibleMoves
  calc (allBoardPositions.filter fun pos =>
        checkValidMove white black pos player).length
      ≤ allBoardPositions.length := List.length_filter_le _ _
    _ = 64 := by rfl

/-- Bounding the sum of a list of bounded values. -/
theorem sum_abs_bound {α : Type} (l : List α) (f : α → Int) (c : Int)
    (h : ∀ a ∈ l, |f a| ≤ c) : |(l.map f).sum| ≤ c * l.length := by
  induction l with
  | nil => simp
  | cons a t ih =>
    simp only [List.map_cons, List.sum_cons, List.length_cons]
    calc |f a + (t.map f).sum| ≤ |f a| + |(t.map f).sum| := abs_add _ _
      _ ≤ c + c * t.length := add_le_add (h a (List.mem_cons_self a t))
          (ih fun x hx => h x (List.mem_cons_of_mem a hx))
      _ = c * ((t.length : Int) + 1) := by ring
      _ = c * ((t.length + 1 : Nat) : Int) := by push_cast; ring

/-- The static evaluator is bounded by 198 in absolute value: at most 64
from material, 40 from corners, 30 from edges and 64 from mobility. -/
theorem evaluateBoard_bound (white black : Nat) (player : Player) :
    -198 ≤ evaluateBoard white black player ∧
      evaluateBoard white black player ≤ 198 := by
  rw [evaluateBoard_eq]
  have hpc : ∀ n : Nat, 0 ≤ (popcount64 n : Int) ∧ (popcount64 n : Int) ≤ 64 :=
    fun n => ⟨Int.ofNat_nonneg _, by exact_mod_cast popcount64_le n⟩
  have hcorner : |corners.foldl (fun acc corner =>
      if (playerBoardOf white black player).testBit
          (squareIndex corner.1 corner.2) then acc + CORNER_WEIGHT
      else if (opponentBoardOf white black player).testBit
          (squareIndex corner.1 corner.2) then acc - CORNER_WEIGHT
      else acc) 0| ≤ 40 := by
    rw [foldl_eq_sum _
      (fun corner =>
        if (playerBoardOf white black player).testBit
            (squareIndex corner.1 corner.2) then CORNER_WEIGHT
        else if (opponentBoardOf white black player).testBit
            (squareIndex corner.1 corner.2) then -CORNER_WEIGHT
        else 0)
      (by intro acc a; exact step_shape acc CORNER_WEIGHT _ _) corners 0]
    rw [zero_add]
    calc |_| ≤ CORNER_WEIGHT * (corners.length : Int) :=
        sum_abs_bound corners _ CORNER_WEIGHT (by
          intro a ha
          split_ifs <;> simp [CORNER_WEIGHT])
      _ = 40 := by rfl
  have hside : |(List.range' 1 6).foldl (fun acc i =>
      if (playerBoardOf white black player).testBit i ∨
          (playerBoardOf white black player).testBit (i * 8) ∨
          (playerBoardOf white black player).testBit (7 * 8 + i) ∨
          (playerBoardOf white black player).testBit (i * 8 + 7) then
        acc + SIDE_WEIGHT
      else if (opponentBoardOf white black player).testBit i ∨
          (opponentBoardOf white black player).testBit (i * 8) ∨
          (opponentBoardOf white black player).testBit (7 * 8 + i) ∨
          (opponentBoardOf white black player).testBit (i * 8 + 7) then
        acc - SIDE_WEIGHT
      else acc) 0| ≤ 30 := by
    rw [foldl_eq_sum _
      (fun i =>
        if (playerBoardOf white black player).testBit i ∨
            (playerBoardOf white black player).testBit (i * 8) ∨
            (playerBoardOf white black player).testBit (7 * 8 + i) ∨
            (playerBoardOf white black player).testBit (i * 8 + 7) then
          SIDE_WEIGHT
        else if (opponentBoardOf white black player).testBit i ∨
            (opponentBoardOf white black player).testBit (i * 8) ∨
            (opponentBoardOf white black player).testBit (7 * 8 + i) ∨
            (opponentBoardOf white black player).testBit (i * 8 + 7) then
          -SIDE_WEIGHT
        else 0)
      (by intro acc a; exact step_shape acc SIDE_WEIGHT _ _)
      (List.range' 1 6) 0]
    rw [zero_add]
    calc |_| ≤ SIDE_WEIGHT * ((List.range' 1 6).length : Int) :=
        sum_abs_bound (List.range' 1 6) _ SIDE_WEIGHT (by
          intro a ha
          split_ifs <;> simp [SIDE_WEIGHT])
      _ = 30 := by rfl
  have hmob : |Int.tdiv
      (((getPossibleMoves white black player).length : Int) -
        ((getPossibleMoves white black (opponent player)).length : Int))
      5| ≤ 64 := by
    have h1 : ((getPossibleMoves white black player).length : Int) ≤ 64 := by
      exact_mod_cast getPossibleMoves_length_le white black player
    have h2 : ((getPossibleMoves white black
        (opponent player)).length : Int) ≤ 64 := by
      exact_mod_cast getPossibleMoves_length_le white black (opponent player)
    have h3 : (0 : Int) ≤ (getPossibleMoves white black player).length :=
      Int.ofNat_nonneg _
    have h4 : (0 : Int) ≤
        (getPossibleMoves white black (opponent player)).length :=
      Int.ofNat_nonneg _
    rw [abs_le]
    have habs := Int.natAbs_tdiv
      (((getPossibleMoves white black player).length : Int) -
        ((getPossibleMoves white black (opponent player)).length : Int)) 5
    have hdivle : (Int.tdiv
        (((getPossibleMoves white black player).length : Int) -
          ((getPossibleMoves white black (opponent player)).length : Int))
        5).natAbs ≤
        (((getPossibleMoves white black player).length : Int) -
          ((getPossibleMoves white black
            (opponent player)).length : Int)).natAbs := by
      rw [habs]
      exact Nat.div_le_self _ _
    omega
  rw [abs_le] at hcorner hside
  obtain ⟨ha1, ha2⟩ := hpc (playerBoardOf white black player)
  obtain ⟨hb1, hb2⟩ := hpc (opponentBoardOf white black player)
  rw [abs_le] at hmob
  constructor <;> omega

/-- A side to move has a valid move exactly when the candidate list is
non-empty (both scan the same squares with the same check). -/
theorem hasValidMoves_iff_moves (white black : Nat) (player : Player) :
    hasValidMoves white black player = true ↔
      getPossibleMoves white black player ≠ [] := by
  unfold hasValidMoves getPossibleMoves
  rw [List.any_eq_true, Ne, List.filter_eq_nil_iff]
  constructor
  · rintro ⟨pos, hmem, hcv⟩ hall
    exact hall pos hmem hcv
  · intro h
    by_contra hnone
    push_neg at hnone
    exact h fun pos hmem hcv => hnone pos hmem hcv

/-- The pruned maximizing loop returns at most the max of its running
value and any uniform upper bound on the children. -/
theorem maximizeLoop_le (child : Int × Int → Int → Int → Int) (c : Int)
    (hc : ∀ m a b, child m a b ≤ c) :
    ∀ (ms : List (Int × Int)) (maxEval : Int) (bm : Int × Int)
      (alpha beta : Int),
      (maximizeLoop child ms maxEval bm alpha beta).1 ≤ max maxEval c := by
  intro ms
  induction ms with
  | nil => intro maxEval bm alpha beta; exact le_max_left _ _
  | cons m t ih =>
    intro maxEval bm alpha beta
    simp only [maximizeLoop]
    have hstep : (if child m alpha beta > maxEval then child m alpha beta
        else maxEval) ≤ max maxEval c := by
      rw [if_gt_eq_max]
      exact max_le_max (le_refl _) (hc m alpha beta)
    split
    · exact hstep
    · exact le_trans (ih _ _ _ _) (max_le_max hstep (le_refl c) |>.trans
        (by rw [max_assoc, max_self]))

/-- The pruned maximizing loop returns at least any uniform lower bound on
the children once its running value is above it or one child has been
explored. -/
theorem maximizeLoop_ge (child : Int × Int → Int → Int → Int) (lo : Int)
    (hc : ∀ m a b, lo ≤ child m a b) :
    ∀ (ms : List (Int × Int)) (maxEval : Int) (bm : Int × Int)
      (alpha beta : Int), (lo ≤ maxEval ∨ ms ≠ []) →
      lo ≤ (maximizeLoop child ms maxEval bm alpha beta).1 := by
  intro ms
  induction ms with
  | nil =>
    intro maxEval bm alpha beta h
    exact h.resolve_right (by simp)
  | cons m t ih =>
    intro maxEval bm alpha beta h
    simp only [maximizeLoop]
    have hstep : lo ≤ (if child m alpha beta > maxEval then child m alpha beta
        else maxEval) := by
      rw [if_gt_eq_max]
      exact le_trans (hc m alpha beta) (le_max_right _ _)
    split
    · exact hstep
    · exact ih _ _ _ _ (Or.inl hstep)

/-- The pruned minimizing loop returns at least the min of its running
value and any uniform lower bound on the children. -/
theorem minimizeLoop_ge (child : Int × Int → Int → Int → Int) (lo : Int)
    (hc : ∀ m a b, lo ≤ child m a b) :
    ∀ (ms : List (Int × Int)) (minEval : Int) (bm : Int × Int)
      (alpha beta : Int),
      min minEval lo ≤ (minimizeLoop child ms minEval bm alpha beta).1 := by
  intro ms
  induction ms with
  | nil => intro minEval bm alpha beta; exact min_le_left _ _
  | cons m t ih =>
    intro minEval bm alpha beta
    simp only [minimizeLoop]
    have hstep : min minEval lo ≤ (if child m alpha beta < minEval
        then child m alpha beta else minEval) := by
      rw [if_lt_eq_min]
      exact min_le_min (le_refl _) (hc m alpha beta)
    split
    · exact hstep
    · exact le_trans (le_min hstep (min_le_right _ _)) (ih _ _ _ _)

/-- The pruned minimizing loop returns at most any uniform upper bound on
the children once its running value is below it or one child has been
explored. -/
theorem minimizeLoop_le (child : Int × Int → Int → Int → Int) (c : Int)
    (hc : ∀ m a b, child m a b ≤ c) :
    ∀ (ms : List (Int × Int)) (minEval : Int) (bm : Int × Int)
      (alpha beta : Int), (minEval ≤ c ∨ ms ≠ []) →
      (minimizeLoop child ms minEval bm alpha beta).1 ≤ c := by
  intro ms
  induction ms with
  | nil =>
    intro minEval bm alpha beta h
    exact h.resolve_right (by simp)
  | cons m t ih =>
    intro minEval bm alpha beta h
    simp only [minimizeLoop]
    have hstep : (if child m alpha beta < minEval then child m alpha beta
        else minEval) ≤ c := by
      rw [if_lt_eq_min]
      exact le_trans (min_le_right _ _) (hc m alpha beta)
    split
    · exact hstep
    · exact ih _ _ _ _ (Or.inl hstep)

/-- Every search value is bounded by the static evaluator's bound. -/
theorem minimax_bound : ∀ (depth : Nat) (white black : Nat) (player : Player)
    (isMaximizing : Bool) (alpha beta : Int),
    -198 ≤ (minimax white black player depth isMaximizing alpha beta).1 ∧
      (minimax white black player depth isMaximizing alpha beta).1 ≤ 198 := by
  intro depth
  induction depth with
  | zero =>
    intro white black player isMaximizing alpha beta
    rw [minimax, dif_pos (Or.inl rfl)]
    exact evaluateBoard_bound white black player
  | succ d ih =>
    intro white black player isMaximizing alpha beta
    by_cases hterm : (d + 1 = 0 ∨ hasValidMoves white black player = false)
    · rw [minimax, dif_pos hterm]
      exact evaluateBoard_bound white black player
    · rw [minimax, dif_neg hterm]
      have hne : getPossibleMoves white black player ≠ [] := by
        apply (hasValidMoves_iff_moves white black player).mp
        push_neg at hterm
        rcases Bool.eq_false_or_eq_true
            (hasValidMoves white black player) with h | h
        · exact h
        · exact absurd h hterm.2
      have hchild198 : ∀ (m : Int × Int) (a b : Int),
          -198 ≤ (minimax (applyMove white black m player).1
            (applyMove white black m player).2 (opponent player)
            (d + 1 - 1) (!isMaximizing) a b).1 ∧
          (minimax (applyMove white black m player).1
            (applyMove white black m player).2 (opponent player)
            (d + 1 - 1) (!isMaximizing) a b).1 ≤ 198 := by
        intro m a b
        simp only [Nat.add_sub_cancel]
        exact ih _ _ _ _ _ _
      rcases isMaximizing with _ | _
      · simp only [Bool.false_eq_true, if_false]
        constructor
        · rw [show (-198 : Int) = min INT_MAX (-198) from by decide]
          exact minimizeLoop_ge _ (-198)
            (fun m a b => (by simpa using (hchild198 m a b).1)) _ _ _ _ _
        · exact minimizeLoop_le _ 198
            (fun m a b => (by simpa using (hchild198 m a b).2)) _ _ _ _ _
            (Or.inr hne)
      · simp only [if_true]
        constructor
        · exact maximizeLoop_ge _ (-198)
            (fun m a b => (by simpa using (hchild198 m a b).1)) _ _ _ _ _
            (Or.inr hne)
        · rw [show (198 : Int) = max INT_MIN 198 from by decide]
          exact maximizeLoop_le _ 198
            (fun m a b => (by simpa using (hchild198 m a b).2)) _ _ _ _ _

/-- Fail-soft property of the pruned maximizing loop: relative to the
window (alpha0, beta) of the node, the loop value understates the full
fold of the true child values when failing low, overstates it when
failing high, and equals it inside the window.  The running alpha is
always the max of the node's alpha0 and the running value. -/
theorem maxLoop_failsoft (childP : Int × Int → Int → Int → Int)
    (childF : Int × Int → Int) (alpha0 beta : Int)
    (hIH : ∀ (m : Int × Int) (a b : Int), INT_MIN ≤ a → b ≤ INT_MAX →
      a < b →
      ((childP m a b ≤ a → childF m ≤ childP m a b) ∧
        (b ≤ childP m a b → childP m a b ≤ childF m) ∧
        (a < childP m a b → childP m a b < b → childP m a b = childF m)))
    (h0 : INT_MIN ≤ alpha0) (hbMax : beta ≤ INT_MAX) :
    ∀ (ms : List (Int × Int)) (maxEval : Int) (bm : Int × Int)
      (alpha : Int), alpha = max alpha0 maxEval → alpha < beta →
      (((maximizeLoop childP ms maxEval bm alpha beta).1 ≤ alpha0 →
        ms.foldl (fun acc m => max acc (childF m)) maxEval ≤
          (maximizeLoop childP ms maxEval bm alpha beta).1) ∧
        (beta ≤ (maximizeLoop childP ms maxEval bm alpha beta).1 →
          (maximizeLoop childP ms maxEval bm alpha beta).1 ≤
            ms.foldl (fun acc m => max acc (childF m)) maxEval) ∧
        (alpha0 < (maximizeLoop childP ms maxEval bm alpha beta).1 →
          (maximizeLoop childP ms maxEval bm alpha beta).1 < beta →
          (maximizeLoop childP ms maxEval bm alpha beta).1 =
            ms.foldl (fun acc m => max acc (childF m)) maxEval)) := by
  intro ms
  induction ms with
  | nil =>
    intro maxEval bm alpha hinv hab
    exact ⟨fun _ => le_refl _, fun _ => le_refl _, fun _ _ => rfl⟩
  | cons m t ih =>
    intro maxEval bm alpha hinv hab
    have hchild := hIH m alpha beta
      (by rw [hinv]; exact le_trans h0 (le_max_left _ _)) hbMax hab
    simp only [maximizeLoop, List.foldl_cons, if_gt_eq_max]
    have hM := foldl_max_ge_init childF t maxEval
    split
    case isTrue hcut =>
      have he : beta ≤ childP m alpha beta := by
        rcases le_total (childP m alpha beta) alpha with h2 | h2
        · rw [max_eq_left h2] at hcut; omega
        · rw [max_eq_right h2] at hcut; exact hcut
      have hev := hchild.2.1 he
      have hr : beta ≤ max maxEval (childP m alpha beta) :=
        le_trans he (le_max_right _ _)
      have ha0 : alpha0 ≤ alpha := by rw [hinv]; exact le_max_left _ _
      refine ⟨?_, ?_, ?_⟩
      · intro h; omega
      · intro h
        exact le_trans (max_le_max (le_refl maxEval) hev)
          (foldl_max_ge_init childF t (max maxEval (childF m)))
      · intro hr1 hr2; omega
    case isFalse hncut =>
      have hab2 : max alpha (childP m alpha beta) < beta := not_le.mp hncut
      have heb : childP m alpha beta < beta :=
        lt_of_le_of_lt (le_max_right alpha (childP m alpha beta)) hab2
      have hinv2 : max alpha (childP m alpha beta) =
          max alpha0 (max maxEval (childP m alpha beta)) := by
        rw [hinv, max_assoc]
      have ihr := ih (max maxEval (childP m alpha beta))
        (if childP m alpha beta > maxEval then m else bm)
        (max alpha (childP m alpha beta)) hinv2 hab2
      rcases le_or_lt (childP m alpha beta) alpha with hlow | hgt
      · -- The child failed low: its reported value bounds the true value
        -- from above, and the running maximum cannot move above alpha.
        have hve := hchild.1 hlow
        have hV2 := foldl_max_max childF t maxEval (childP m alpha beta)
        have hV3 := foldl_max_max childF t maxEval (childF m)
        rw [hV2] at ihr
        rw [hV3]
        have ha0 : alpha0 ≤ alpha := by rw [hinv]; exact le_max_left _ _
        refine ⟨?_, ?_, ?_⟩
        · intro h
          exact le_trans (max_le_max (le_refl _) hve) (ihr.1 h)
        · intro h
          have h2 := ihr.2.1 h
          rcases le_total (childP m alpha beta)
              (t.foldl (fun acc m => max acc (childF m)) maxEval) with
            h3 | h3
          · rw [max_eq_left h3] at h2
            exact le_trans h2 (le_max_left _ _)
          · rw [max_eq_right h3] at h2
            omega
        · intro hr1 hr2
          have h2 := ihr.2.2 hr1 hr2
          rcases le_total (childP m alpha beta)
              (t.foldl (fun acc m => max acc (childF m)) maxEval) with
            h3 | h3
          · rw [max_eq_left h3] at h2
            rw [h2, max_eq_left (le_trans hve h3)]
          · rw [max_eq_right h3] at h2
            have hemax : childP m alpha beta ≤ maxEval := by
              rcases le_total maxEval alpha0 with h4 | h4
              · have h5 : alpha ≤ alpha0 := by
                  rw [hinv]; exact max_le (le_refl _) h4
                omega
              · have h5 : alpha ≤ maxEval := by
                  rw [hinv]; exact max_le h4 (le_refl _)
                omega
            have hMe : t.foldl (fun acc m => max acc (childF m)) maxEval =
                childP m alpha beta :=
              le_antisymm h3 (le_trans hemax hM)
            rw [h2, ← hMe, max_eq_left (le_trans hve (le_of_eq hMe.symm))]
      · -- The child value is inside the window and hence exact.
        have hev := hchild.2.2 hgt heb
        rw [← hev]
        exact ihr

/-- Fail-soft property of the pruned minimizing loop, the mirror image of
maxLoop_failsoft: the running beta is always the min of the node's beta0
and the running value. -/
theorem minLoop_failsoft (childP : Int × Int → Int → Int → Int)
    (childF : Int × Int → Int) (alpha beta0 : Int)
    (hIH : ∀ (m : Int × Int) (a b : Int), INT_MIN ≤ a → b ≤ INT_MAX →
      a < b →
      ((childP m a b ≤ a → childF m ≤ childP m a b) ∧
        (b ≤ childP m a b → childP m a b ≤ childF m) ∧
        (a < childP m a b → childP m a b < b → childP m a b = childF m)))
    (h0 : INT_MIN ≤ alpha) (hbMax : beta0 ≤ INT_MAX) :
    ∀ (ms : List (Int × Int)) (minEval : Int) (bm : Int × Int)
      (beta : Int), beta = min beta0 minEval → alpha < beta →
      (((minimizeLoop childP ms minEval bm alpha beta).1 ≤ alpha →
        (minimizeLoop childP ms minEval bm alpha beta).1 ≥
          ms.foldl (fun acc m => min acc (childF m)) minEval) ∧
        (beta0 ≤ (minimizeLoop childP ms minEval bm alpha beta).1 →
          (minimizeLoop childP ms minEval bm alpha beta).1 ≤
            ms.foldl (fun acc m => min acc (childF m)) minEval) ∧
        (alpha < (minimizeLoop childP ms minEval bm alpha beta).1 →
          (minimizeLoop childP ms minEval bm alpha beta).1 < beta0 →
          (minimizeLoop childP ms minEval bm alpha beta).1 =
            ms.foldl (fun acc m => min acc (childF m)) minEval)) := by
  intro ms
  induction ms with
  | nil =>
    intro minEval bm beta hinv hab
    exact ⟨fun _ => le_refl _, fun _ => le_refl _, fun _ _ => rfl⟩
  | cons m t ih =>
    intro minEval bm beta hinv hab
    have hchild := hIH m alpha beta h0
      (by rw [hinv]; exact le_trans (min_le_left _ _) hbMax) hab
    simp only [minimizeLoop, List.foldl_cons, if_lt_eq_min]
    have hM := foldl_min_le_init childF t minEval
    split
    case isTrue hcut =>
      have he : childP m alpha beta ≤ alpha := by
        rcases le_total beta (childP m alpha beta) with h2 | h2
        · rw [min_eq_left h2] at hcut; omega
        · rw [min_eq_right h2] at hcut; exact hcut
      have hev := hchild.1 he
      have hr : min minEval (childP m alpha beta) ≤ alpha :=
        le_trans (min_le_right _ _) he
      have hb0 : beta ≤ beta0 := by rw [hinv]; exact min_le_left _ _
      refine ⟨?_, ?_, ?_⟩
      · intro h
        exact le_trans
          (foldl_min_le_init childF t (min minEval (childF m)))
          (min_le_min (le_refl minEval) hev)
      · intro h; omega
      · intro hr1 hr2; omega
    case isFalse hncut =>
      have hab2 : alpha < min beta (childP m alpha beta) := not_le.mp hncut
      have hea : alpha < childP m alpha beta :=
        lt_of_lt_of_le hab2 (min_le_right beta (childP m alpha beta))
      have hinv2 : min beta (childP m alpha beta) =
          min beta0 (min minEval (childP m alpha beta)) := by
        rw [hinv, min_assoc]
      have ihr := ih (min minEval (childP m alpha beta))
        (if childP m alpha beta < minEval then m else bm)
        (min beta (childP m alpha beta)) hinv2 hab2
      rcases le_or_lt beta (childP m alpha beta) with hhigh | hlt
      · -- The child failed high: its reported value bounds the true value
        -- from below, and the running minimum cannot move below beta.
        have hve := hchild.2.1 hhigh
        have hV2 := foldl_min_min childF t minEval (childP m alpha beta)
        have hV3 := foldl_min_min childF t minEval (childF m)
        rw [hV2] at ihr
        rw [hV3]
        have hb0 : beta ≤ beta0 := by rw [hinv]; exact min_le_left _ _
        refine ⟨?_, ?_, ?_⟩
        · intro h
          have h2 := ihr.1 h
          rcases le_total (t.foldl (fun acc m => min acc (childF m)) minEval)
              (childP m alpha beta) with h3 | h3
          · rw [min_eq_left h3] at h2
            exact le_trans (min_le_left _ _) h2
          · rw [min_eq_right h3] at h2
            omega
        · intro h
          exact le_trans (ihr.2.1 h) (min_le_min (le_refl _) hve)
        · intro hr1 hr2
          have h2 := ihr.2.2 hr1 hr2
          rcases le_total (t.foldl (fun acc m => min acc (childF m)) minEval)
              (childP m alpha beta) with h3 | h3
          · rw [min_eq_left h3] at h2
            rw [h2, min_eq_left (le_trans h3 hve)]
          · rw [min_eq_right h3] at h2
            have hemin : minEval ≤ childP m alpha beta := by
              rcases le_total beta0 minEval with h4 | h4
              · have h5 : beta0 ≤ beta := by
                  rw [hinv]; exact le_min (le_refl _) h4
                omega
              · have h5 : minEval ≤ beta := by
                  rw [hinv]; exact le_min h4 (le_refl _)
                omega
            have hMe : t.foldl (fun acc m => min acc (childF m)) minEval =
                childP m alpha beta :=
              le_antisymm (le_trans hM hemin) h3
            rw [h2, ← hMe, min_eq_left (le_trans (le_of_eq hMe) hve)]
      · -- The child value is inside the window and hence exact.
        have hev := hchild.2.2 hea hlt
        rw [← hev]
        exact ihr

/-- Fail-soft theorem for the pruned search against the unpruned search:
for any window with INT_MIN ≤ alpha < beta ≤ INT_MAX, the pruned value
bounds the full minimax value from above when failing low, from below when
failing high, and equals it strictly inside the window. -/
theorem minimax_failsoft : ∀ (depth : Nat) (white black : Nat)
    (player : Player) (isMaximizing : Bool) (alpha beta : Int),
    INT_MIN ≤ alpha → beta ≤ INT_MAX → alpha < beta →
    (((minimax white black player depth isMaximizing alpha beta).1 ≤ alpha →
      (minimaxFull white black player depth isMaximizing).1 ≤
        (minimax white black player depth isMaximizing alpha beta).1) ∧
      (beta ≤ (minimax white black player depth isMaximizing alpha beta).1 →
        (minimax white black player depth isMaximizing alpha beta).1 ≤
          (minimaxFull white black player depth isMaximizing).1) ∧
      (alpha < (minimax white black player depth isMaximizing alpha beta).1 →
        (minimax white black player depth isMaximizing alpha beta).1 < beta →
        (minimax white black player depth isMaximizing alpha beta).1 =
          (minimaxFull white black player depth isMaximizing).1)) := by
  intro depth
  induction depth with
  | zero =>
    intro white black player isMaximizing alpha beta ha hb hab
    rw [minimax, minimaxFull, dif_pos (Or.inl rfl), dif_pos (Or.inl rfl)]
    exact ⟨fun _ => le_refl _, fun _ => le_refl _, fun _ _ => rfl⟩
  | succ d ih =>
    intro white black player isMaximizing alpha beta ha hb hab
    by_cases hterm : (d + 1 = 0 ∨ hasValidMoves white black player = false)
    · rw [minimax, minimaxFull, dif_pos hterm, dif_pos hterm]
      exact ⟨fun _ => le_refl _, fun _ => le_refl _, fun _ _ => rfl⟩
    · rw [minimax, minimaxFull, dif_neg hterm, dif_neg hterm]
      have hIHc : ∀ (m : Int × Int) (a b : Int), INT_MIN ≤ a →
          b ≤ INT_MAX → a < b →
          (((minimax (applyMove white black m player).1
              (applyMove white black m player).2 (opponent player)
              (d + 1 - 1) (!isMaximizing) a b).1 ≤ a →
            (minimaxFull (applyMove white black m player).1
              (applyMove white black m player).2 (opponent player)
              (d + 1 - 1) (!isMaximizing)).1 ≤
              (minimax (applyMove white black m player).1
                (applyMove white black m player).2 (opponent player)
                (d + 1 - 1) (!isMaximizing) a b).1) ∧
            (b ≤ (minimax (applyMove white black m player).1
                (applyMove white black m player).2 (opponent player)
                (d + 1 - 1) (!isMaximizing) a b).1 →
              (minimax (applyMove white black m player).1
                (applyMove white black m player).2 (opponent player)
                (d + 1 - 1) (!isMaximizing) a b).1 ≤
                (minimaxFull (applyMove white black m player).1
                  (applyMove white black m player).2 (opponent player)
                  (d + 1 - 1) (!isMaximizing)).1) ∧
            (a < (minimax (applyMove white black m player).1
                (applyMove white black m player).2 (opponent player)
                (d + 1 - 1) (!isMaximizing) a b).1 →
              (minimax (applyMove white black m player).1
                (applyMove white black m player).2 (opponent player)
                (d + 1 - 1) (!isMaximizing) a b).1 < b →
              (minimax (applyMove white black m player).1
                (applyMove white black m player).2 (opponent player)
                (d + 1 - 1) (!isMaximizing) a b).1 =
                (minimaxFull (applyMove white black m player).1
                  (applyMove white black m player).2 (opponent player)
                  (d + 1 - 1) (!isMaximizing)).1)) := by
        intro m a b ha2 hb2 hab2
        simp only [Nat.add_sub_cancel]
        exact ih _ _ _ _ _ _ ha2 hb2 hab2
      rcases isMaximizing with _ | _
      · simp only [Bool.false_eq_true, if_false]
        rw [fullMinimizeLoop_val]
        have := minLoop_failsoft
          (fun m a b => (minimax (applyMove white black m player).1
            (applyMove white black m player).2 (opponent player)
            (d + 1 - 1) true a b).1)
          (fun m => (minimaxFull (applyMove white black m player).1
            (applyMove white black m player).2 (opponent player)
            (d + 1 - 1) true).1)
          alpha beta (by simpa using hIHc) ha hb
          (getPossibleMoves white black player) INT_MAX (-1, -1) beta
          (by rw [min_eq_left hb]) hab
        exact this
      · simp only [if_true]
        rw [fullMaximizeLoop_val]
        have := maxLoop_failsoft
          (fun m a b => (minimax (applyMove white black m player).1
            (applyMove white black m player).2 (opponent player)
            (d + 1 - 1) false a b).1)
          (fun m => (minimaxFull (applyMove white black m player).1
            (applyMove white black m player).2 (opponent player)
            (d + 1 - 1) false).1)
          alpha beta (by simpa using hIHc) ha hb
          (getPossibleMoves white black player) INT_MIN (-1, -1) alpha
          (by rw [max_eq_left ha]) hab
        exact this

/-- Root loop with the full window: as long as the running alpha equals
the running maximum (as it does when both start at INT_MIN) and the
children are exact inside the window and bounded, the pruned maximizing
loop and the unpruned maximizing loop go through identical states — same
running value, same best move, and no cutoff ever fires. -/
theorem rootMaxLoop_eq (childP : Int × Int → Int → Int → Int)
    (childF : Int × Int → Int)
    (hIH : ∀ (m : Int × Int) (a b : Int), INT_MIN ≤ a → b ≤ INT_MAX →
      a < b →
      ((childP m a b ≤ a → childF m ≤ childP m a b) ∧
        (b ≤ childP m a b → childP m a b ≤ childF m) ∧
        (a < childP m a b → childP m a b < b → childP m a b = childF m)))
    (hbound : ∀ (m : Int × Int) (a b : Int),
      -198 ≤ childP m a b ∧ childP m a b ≤ 198) :
    ∀ (ms : List (Int × Int)) (maxEval : Int) (bm : Int × Int),
      INT_MIN ≤ maxEval → maxEval < INT_MAX →
      maximizeLoop childP ms maxEval bm maxEval INT_MAX =
        fullMaximizeLoop childF ms maxEval bm := by
  intro ms
  induction ms with
  | nil => intro maxEval bm hlo hhi; rfl
  | cons m t ih =>
    intro maxEval bm hlo hhi
    obtain ⟨hbl, hbh⟩ := hbound m maxEval INT_MAX
    have hchild := hIH m maxEval INT_MAX hlo (le_refl _) hhi
    simp only [maximizeLoop, fullMaximizeLoop]
    rw [if_neg (by
      rw [not_le]
      rcases le_total (childP m maxEval INT_MAX) maxEval with h2 | h2
      · rw [max_eq_left h2]; exact hhi
      · rw [max_eq_right h2]
        calc childP m maxEval INT_MAX ≤ 198 := hbh
          _ < INT_MAX := by decide)]
    rcases le_or_lt (childP m maxEval INT_MAX) maxEval with hlow | hgt
    · have hve := hchild.1 hlow
      have hnup : ¬(childP m maxEval INT_MAX > maxEval) := not_lt.mpr hlow
      have hnupF : ¬(childF m > maxEval) :=
        not_lt.mpr (le_trans hve hlow)
      rw [if_neg hnup, if_neg hnup, if_neg hnupF, if_neg hnupF,
        max_eq_left hlow]
      exact ih maxEval bm hlo hhi
    · have hve := hchild.2.2 hgt (lt_of_le_of_lt hbh (by decide))
      have hup : childP m maxEval INT_MAX > maxEval := hgt
      have hupF : childF m > maxEval := by rw [← hve]; exact hgt
      rw [if_pos hup, if_pos hup, if_pos hupF, if_pos hupF,
        max_eq_right (le_of_lt hgt), ← hve]
      exact ih (childP m maxEval INT_MAX) m (le_trans (by decide) hbl)
        (lt_of_le_of_lt hbh (by decide))

/-- C1: seeded with the full window (alpha = INT_MIN, beta = INT_MAX), the
alpha-beta pruned search returns exactly the same result — in particular
the same selected move — as the unpruned full minimax search, for every
pair of disjoint boards, every player, and every depth at least 1. -/
theorem alphabeta_move_eq_minimax (white black : Nat) (player : Player)
    (depth : Nat) (hdepth : 1 ≤ depth) (hdisj : white &&& black = 0) :
    (minimax white black player depth true INT_MIN INT_MAX).2 =
      (minimaxFull white black player depth true).2 := by
  suffices h : minimax white black player depth true INT_MIN INT_MAX =
      minimaxFull white black player depth true by rw [h]
  by_cases hterm : (depth = 0 ∨ hasValidMoves white black player = false)
  · rw [minimax, minimaxFull, dif_pos hterm, dif_pos hterm]
  · rw [minimax, minimaxFull, dif_neg hterm, dif_neg hterm]
    simp only [if_true]
    exact rootMaxLoop_eq
      (fun m a b => (minimax (applyMove white black m player).1
        (applyMove white black m player).2 (opponent player)
        (depth - 1) false a b).1)
      (fun m => (minimaxFull (applyMove white black m player).1
        (applyMove white black m player).2 (opponent player)
        (depth - 1) false).1)
      (fun m a b ha hb hab => minimax_failsoft (depth - 1) _ _ _ _ _ _
        ha hb hab)
      (fun m a b => minimax_bound (depth - 1) _ _ _ _ _ _)
      (getPossibleMoves white black player) INT_MIN (-1, -1)
      (le_refl _) (by decide)

/-- Witness for C1 at a concrete input: the initial position, black to
move, at the game's fixed search depth of 10 plies. -/
theorem alphabeta_move_eq_minimax_witness :
    1 ≤ 10 ∧ setupInitialPos.1 &&& setupInitialPos.2 = 0 ∧
      (minimax setupInitialPos.1 setupInitialPos.2 Player.B 10 true
        INT_MIN INT_MAX).2 =
        (minimaxFull setupInitialPos.1 setupInitialPos.2 Player.B 10
          true).2 :=
  ⟨by omega, by decide,
    alphabeta_move_eq_minimax setupInitialPos.1 setupInitialPos.2 Player.B
      10 (by omega) (by decide)⟩

end Reversi
